import Mathlib

/-!
# Vectorised query pipeline Q1 and order-preserving float encoding

Shallow embedding of `material/07/023-intermediates.c` (the operators
`FILTER_*`, `PROJECT_*`, `HASH_*`, `AGGR_*`, the four column scans and the
driver `Q1`), of `material/05/017-encode-float.c` (`encode_float`), of the
selection loops of `material/07/029-branch-prediction.c` and
`material/07/030-mixed-mode-conjunction.c`, and of the two projections of
`material/07/026-unroll.c`.

Conventions of the embedding.

* A C pointer `p` to an array is the total map `i ↦ p[i]` (`Mem`); array
  indices (loop counters, selection-vector entries, hash keys) are natural
  numbers.  Counts and cursors declared `int` whose sign matters (`n`, the scan
  cursor `idx`, the rows left) are integers; a loop `for (j = 0; j < n; j += 1)`
  visits `List.range n.toNat`, so it runs zero times for `n ≤ 0`.
* `int` arithmetic in the operators and the driver is exact integer
  arithmetic: these definitions describe the program where no signed overflow
  (undefined in C) happens.  The four scans exist a second time with 32-bit
  wrap-around (`SCAN_shipdate_int` and its siblings); the two versions agree
  whenever `LINEITEM - idx` and `idx + n` fit in `int`.  The subtraction of
  `026-unroll.c` wraps around (`int_sub`).
* `double` is an arbitrary type `D` with `+`, `-`, `*`, `0` and `1` and no
  algebraic law at all, so every statement holds for IEEE 754 arithmetic, with
  sums taken in the order in which the program adds.  Where sums are compared,
  `≤` is assumed reflexive and compatible with adding a non-negative value only
  on the values a predicate `ok` singles out (for `double`: those other than
  NaN and `-∞`).
* `unsigned char` is `Fin 256`.
* The hash table is a list of entries; a slot access outside the list is the
  failure `none`.
* The macros `LINEITEM`, `N` and the filter threshold of `Q1` are parameters.
* The operators and one cycle of `Q1` exist a second time with every access to
  the intermediates and the column views checked (`Q1_cycle_checked`): there an
  intermediate is a list of cells that are `none` until the cycle writes them.
-/

/-! ## Memory -/

/-- Memory seen through a C pointer: `m i` is the array entry at index `i`. -/
abbrev Mem (α : Type) := Nat → α

/-- The assignment `m[i] = v`. -/
def Mem.write {α : Type} (m : Mem α) (i : Nat) (v : α) : Mem α :=
  fun k => if k = i then v else m k

/-! ## Hash table (023-intermediates.c, lines 44-51) -/

/-- The struct `hash_entry`: slot occupied?, grouping key, aggregate. -/
structure hash_entry (D : Type) where
  valid : Bool
  returnflag : Fin 256
  sum : D
deriving DecidableEq, Repr

/-- The statement `ht[key].sum += v`; `none` when `key` is not a slot of `ht`. -/
def ht_add_sum {D : Type} [Add D] (ht : List (hash_entry D)) (key : Nat) (v : D) :
    Option (List (hash_entry D)) :=
  match ht[key]? with
  | some e => some (ht.set key { e with sum := e.sum + v })
  | none => none

/-- The statements `ht[key].valid = true; ht[key].returnflag = c`; `none` when
`key` is not a slot of `ht`. -/
def ht_mark {D : Type} (ht : List (hash_entry D)) (key : Nat) (c : Fin 256) :
    Option (List (hash_entry D)) :=
  match ht[key]? with
  | some e => some (ht.set key { e with valid := true, returnflag := c })
  | none => none

/-! ## Operators (023-intermediates.c, lines 54-163) -/

/-- `AGGR_sum_double_col(n, ht, hash, col, sel)`: returns `n` and the updated
hash table. -/
def AGGR_sum_double_col {D : Type} [Add D] (n : Int) (ht : List (hash_entry D))
    (hash : Mem Nat) (col : Mem D) (sel : Option (Mem Nat)) :
    Option (Int × List (hash_entry D)) :=
  match sel with
  | some sel =>
    ((List.range n.toNat).foldlM
      (fun ht j => let i := sel j; ht_add_sum ht (hash i) (col i)) ht).map (fun ht => (n, ht))
  | none =>
    ((List.range n.toNat).foldlM
      (fun ht i => ht_add_sum ht (hash i) (col i)) ht).map (fun ht => (n, ht))

/-- One iteration of the loops of `HASH_direct_char_col` at position `i`:
`key = (int)col[i]; res[i] = key; ht[key].valid = true; ht[key].returnflag = col[i]`. -/
def HASH_body {D : Type} (col : Mem (Fin 256)) (st : Mem Nat × List (hash_entry D)) (i : Nat) :
    Option (Mem Nat × List (hash_entry D)) :=
  let key := (col i).val
  (ht_mark st.2 key (col i)).map (fun ht => (st.1.write i key, ht))

/-- `HASH_direct_char_col(n, res, ht, col, sel)`: returns `n`, the key vector
`res` and the updated hash table. -/
def HASH_direct_char_col {D : Type} (n : Int) (res : Mem Nat) (ht : List (hash_entry D))
    (col : Mem (Fin 256)) (sel : Option (Mem Nat)) :
    Option (Int × Mem Nat × List (hash_entry D)) :=
  match sel with
  | some sel =>
    ((List.range n.toNat).foldlM (fun st j => HASH_body col st (sel j)) (res, ht)).map
      (fun st => (n, st.1, st.2))
  | none =>
    ((List.range n.toNat).foldlM (fun st i => HASH_body col st i) (res, ht)).map
      (fun st => (n, st.1, st.2))

/-- One iteration of the loops of `FILTER_lt_date_col_date_val` at position
`i`, on the pair (output count `o`, output selection `res`):
`if (col[i] < val) { res[o] = i; o += 1; }`. -/
def FILTER_body (col : Mem Int) (val : Int) (st : Nat × Mem Nat) (i : Nat) : Nat × Mem Nat :=
  if col i < val then (st.1 + 1, st.2.write st.1 i) else st

/-- `FILTER_lt_date_col_date_val(n, res, col, val, sel)`: returns the count `o`
and the output selection `res`. -/
def FILTER_lt_date_col_date_val (n : Int) (res : Mem Nat) (col : Mem Int) (val : Int)
    (sel : Option (Mem Nat)) : Int × Mem Nat :=
  match sel with
  | some sel =>
    let st := (List.range n.toNat).foldl (fun st j => FILTER_body col val st (sel j)) (0, res)
    ((st.1 : Int), st.2)
  | none =>
    let st := (List.range n.toNat).foldl (fun st i => FILTER_body col val st i) (0, res)
    ((st.1 : Int), st.2)

/-- `PROJECT_sub_double_val_double_col(n, res, col, val, sel)`: returns `n` and
`res`. -/
def PROJECT_sub_double_val_double_col {D : Type} [Sub D] (n : Int) (res : Mem D) (col : Mem D)
    (val : D) (sel : Option (Mem Nat)) : Int × Mem D :=
  match sel with
  | some sel =>
    (n, (List.range n.toNat).foldl (fun res j => let i := sel j; res.write i (val - col i)) res)
  | none =>
    (n, (List.range n.toNat).foldl (fun res i => res.write i (val - col i)) res)

/-- `PROJECT_mul_double_col_double_col(n, res, col1, col2, sel)`: returns `n`
and `res`. -/
def PROJECT_mul_double_col_double_col {D : Type} [Mul D] (n : Int) (res : Mem D)
    (col1 col2 : Mem D) (sel : Option (Mem Nat)) : Int × Mem D :=
  match sel with
  | some sel =>
    (n, (List.range n.toNat).foldl
      (fun res j => let i := sel j; res.write i (col1 i * col2 i)) res)
  | none =>
    (n, (List.range n.toNat).foldl (fun res i => res.write i (col1 i * col2 i)) res)

/-! ## Column scans (023-intermediates.c, lines 165-219) -/

/-- Result of one scan call: the value returned, the static cursor `idx` after
the call, and the output pointer `*res` after the call, as a row offset into the
scanned column (`none` is the null pointer). -/
structure ScanResult where
  ret : Int
  idx : Int
  view : Option Int
deriving DecidableEq, Repr

/-- `SCAN_shipdate(n, &res)` with static cursor `idx`; `LINEITEM` is the
cardinality macro. -/
def SCAN_shipdate (LINEITEM n idx : Int) (res : Option Int) : ScanResult :=
  let rows := LINEITEM - idx
  if rows ≤ 0 then ⟨0, idx, res⟩ else ⟨min n rows, idx + n, some idx⟩

/-- `SCAN_returnflag(n, &res)` with static cursor `idx`. -/
def SCAN_returnflag (LINEITEM n idx : Int) (res : Option Int) : ScanResult :=
  let rows := LINEITEM - idx
  if rows ≤ 0 then ⟨0, idx, res⟩ else ⟨min n rows, idx + n, some idx⟩

/-- `SCAN_discount(n, &res)` with static cursor `idx`. -/
def SCAN_discount (LINEITEM n idx : Int) (res : Option Int) : ScanResult :=
  let rows := LINEITEM - idx
  if rows ≤ 0 then ⟨0, idx, res⟩ else ⟨min n rows, idx + n, some idx⟩

/-- `SCAN_extendedprice(n, &res)` with static cursor `idx`. -/
def SCAN_extendedprice (LINEITEM n idx : Int) (res : Option Int) : ScanResult :=
  let rows := LINEITEM - idx
  if rows ≤ 0 then ⟨0, idx, res⟩ else ⟨min n rows, idx + n, some idx⟩

/-- The value a 32-bit two's-complement `int` keeps of the exact integer `x`:
the representative of `x` modulo `2^32` in `[-2^31, 2^31)`. -/
def int_wrap (x : Int) : Int := (x + 2 ^ 31) % 2 ^ 32 - 2 ^ 31

/-- `SCAN_shipdate(n, &res)` with the 32-bit `int` arithmetic of the source made
explicit: `int rows = LINEITEM - idx` and `idx += n` wrap around.  The scans
above compute the same over exact integers; the two agree whenever
`LINEITEM - idx` and `idx + n` fit in `int`. -/
def SCAN_shipdate_int (LINEITEM n idx : Int) (res : Option Int) : ScanResult :=
  let rows := int_wrap (LINEITEM - idx)
  if rows ≤ 0 then ⟨0, idx, res⟩ else ⟨min n rows, int_wrap (idx + n), some idx⟩

/-- `SCAN_returnflag(n, &res)` with 32-bit `int` arithmetic. -/
def SCAN_returnflag_int (LINEITEM n idx : Int) (res : Option Int) : ScanResult :=
  let rows := int_wrap (LINEITEM - idx)
  if rows ≤ 0 then ⟨0, idx, res⟩ else ⟨min n rows, int_wrap (idx + n), some idx⟩

/-- `SCAN_discount(n, &res)` with 32-bit `int` arithmetic. -/
def SCAN_discount_int (LINEITEM n idx : Int) (res : Option Int) : ScanResult :=
  let rows := int_wrap (LINEITEM - idx)
  if rows ≤ 0 then ⟨0, idx, res⟩ else ⟨min n rows, int_wrap (idx + n), some idx⟩

/-- `SCAN_extendedprice(n, &res)` with 32-bit `int` arithmetic. -/
def SCAN_extendedprice_int (LINEITEM n idx : Int) (res : Option Int) : ScanResult :=
  let rows := int_wrap (LINEITEM - idx)
  if rows ≤ 0 then ⟨0, idx, res⟩ else ⟨min n rows, int_wrap (idx + n), some idx⟩

/-! ## The driver Q1 (023-intermediates.c, lines 221-253) -/

/-- The four source columns of table lineitem (lines 39-43). -/
structure Lineitem (D : Type) where
  l_shipdate : Mem Int
  l_returnflag : Mem (Fin 256)
  l_discount : Mem D
  l_extendedprice : Mem D

/-- The array seen through a view pointer `base + off`.  The null pointer is
never dereferenced by `Q1` (a scan that leaves it null returned 0), so the value
`null` read through it is immaterial. -/
def deref {α : Type} (null : α) (base : Mem α) (p : Option Int) : Mem α :=
  match p with
  | some off => fun i => base (off + (i : Int)).toNat
  | none => fun _ => null

/-- The state `Q1` works on: the static cursors of the four scans, the four
view pointers, the intermediates `vec0`, `vec1`, `vec2`, the selection vector
`sel`, and the global hash table. -/
structure Q1State (D : Type) where
  idx_shipdate : Int
  idx_returnflag : Int
  idx_discount : Int
  idx_extendedprice : Int
  shipdates : Option Int
  returnflags : Option Int
  discounts : Option Int
  extendedprices : Option Int
  vec0 : Mem D
  vec1 : Mem D
  vec2 : Mem Nat
  sel : Mem Nat
  hash_table : List (hash_entry D)

/-- The SCAN block of one cycle (lines 236-240): the four scan results. -/
def Q1_scan {D : Type} (LINEITEM N : Int) (st : Q1State D) :
    ScanResult × ScanResult × ScanResult × ScanResult :=
  (SCAN_shipdate LINEITEM N st.idx_shipdate st.shipdates,
   SCAN_returnflag LINEITEM N st.idx_returnflag st.returnflags,
   SCAN_discount LINEITEM N st.idx_discount st.discounts,
   SCAN_extendedprice LINEITEM N st.idx_extendedprice st.extendedprices)

/-- The intermediates a cycle writes and the hash table. -/
structure Q1Buffers (D : Type) where
  vec0 : Mem D
  vec1 : Mem D
  vec2 : Mem Nat
  sel : Mem Nat
  hash_table : List (hash_entry D)

/-- The FILTER, PROJECT and AGGREGATE blocks of one cycle (lines 242-251) on a
batch of length `n` seen through the four views; `none` when a hash-table
access is outside the table. -/
def Q1_operators {D : Type} [Add D] [Sub D] [Mul D] [One D] (n : Int)
    (shipdates : Mem Int) (returnflags : Mem (Fin 256)) (discounts extendedprices : Mem D)
    (val : Int) (b : Q1Buffers D) : Option (Q1Buffers D) :=
  let f := FILTER_lt_date_col_date_val n b.sel shipdates val none
  let m := f.1
  let sel := f.2
  let p0 := PROJECT_sub_double_val_double_col m b.vec0 discounts 1 (some sel)
  let p1 := PROJECT_mul_double_col_double_col m b.vec1 p0.2 extendedprices (some sel)
  match HASH_direct_char_col m b.vec2 b.hash_table returnflags (some sel) with
  | none => none
  | some h =>
    match AGGR_sum_double_col m h.2.2 h.2.1 p1.2 (some sel) with
    | none => none
    | some a => some { vec0 := p0.2, vec1 := p1.2, vec2 := h.2.1, sel := sel, hash_table := a.2 }

/-- One pass through the body of the do-while loop of `Q1` (lines 236-251):
returns `n` (the value tested by `while (n > 0)`) and the state after the
cycle, or `none` when a hash-table access is outside the table. -/
def Q1_cycle {D : Type} [Add D] [Sub D] [Mul D] [Zero D] [One D]
    (T : Lineitem D) (LINEITEM N val : Int) (st : Q1State D) : Option (Int × Q1State D) :=
  let s := Q1_scan LINEITEM N st
  let n := s.1.ret
  match Q1_operators n (deref 0 T.l_shipdate s.1.view) (deref 0 T.l_returnflag s.2.1.view)
      (deref 0 T.l_discount s.2.2.1.view) (deref 0 T.l_extendedprice s.2.2.2.view) val
      { vec0 := st.vec0, vec1 := st.vec1, vec2 := st.vec2, sel := st.sel,
        hash_table := st.hash_table } with
  | none => none
  | some b =>
    some (n,
      { idx_shipdate := s.1.idx, idx_returnflag := s.2.1.idx,
        idx_discount := s.2.2.1.idx, idx_extendedprice := s.2.2.2.idx,
        shipdates := s.1.view, returnflags := s.2.1.view,
        discounts := s.2.2.1.view, extendedprices := s.2.2.2.view,
        vec0 := b.vec0, vec1 := b.vec1, vec2 := b.vec2, sel := b.sel,
        hash_table := b.hash_table })

/-- How a run of the loop ends. -/
inductive Run (σ : Type) where
  | finished (s : σ)
  | fault
  | outOfFuel

/-- The loop `do { cycle } while (n > 0)` run for at most `fuel` cycles. -/
def Q1_loop {D : Type} [Add D] [Sub D] [Mul D] [Zero D] [One D]
    (T : Lineitem D) (LINEITEM N val : Int) : Nat → Q1State D → Run (Q1State D)
  | 0, _ => .outOfFuel
  | fuel + 1, st =>
    match Q1_cycle T LINEITEM N val st with
    | none => .fault
    | some r => if 0 < r.1 then Q1_loop T LINEITEM N val fuel r.2 else .finished r.2

/-- The function `Q1()`, called in state `st` (static cursors, hash table, and
the uninitialised contents of the freshly allocated `vec0`, `vec1`, `vec2`,
`sel`); its view pointers start as null.  The number of cycles allowed is one
more than the number of rows left, which is always enough (`Q1_loop_fuel`). -/
def Q1 {D : Type} [Add D] [Sub D] [Mul D] [Zero D] [One D]
    (T : Lineitem D) (LINEITEM N val : Int) (st : Q1State D) : Run (Q1State D) :=
  Q1_loop T LINEITEM N val ((LINEITEM - st.idx_shipdate).toNat + 1)
    { st with shipdates := none, returnflags := none, discounts := none,
              extendedprices := none }

/-- The result of a run mapped through `f`. -/
def Run.map {σ τ : Type} (f : σ → τ) : Run σ → Run τ
  | .finished s => .finished (f s)
  | .fault => .fault
  | .outOfFuel => .outOfFuel

/-- A run that finished with `some` state or faulted with `none`. -/
def Run.ofOption {σ : Type} : Option σ → Run σ
  | some s => .finished s
  | none => .fault

/-- The state at the start of cycle number `k` (counting from 0) of the loop of
`Q1` started in `st`, when the loop gets that far: each earlier cycle succeeded
and returned `n > 0`. -/
def Q1_cycles {D : Type} [Add D] [Sub D] [Mul D] [Zero D] [One D]
    (T : Lineitem D) (LINEITEM N val : Int) : Nat → Q1State D → Option (Q1State D)
  | 0, st => some st
  | k + 1, st =>
    match Q1_cycle T LINEITEM N val st with
    | none => none
    | some r => if 0 < r.1 then Q1_cycles T LINEITEM N val k r.2 else none

/-! ## Initial state built by `main` (lines 273-278) -/

/-- The constant `UCHAR_MAX` of `limits.h`. -/
def UCHAR_MAX : Nat := 255

/-- The hash table after `calloc(UCHAR_MAX, ...)` and the initialising loop:
`UCHAR_MAX` entries, all invalid, key and sum zero. -/
def main_hash_table (D : Type) [Zero D] : List (hash_entry D) :=
  List.replicate UCHAR_MAX { valid := false, returnflag := 0, sum := 0 }

/-- The state in which `main` calls `Q1`: every static cursor 0, the hash
table `ht`, and arbitrary contents `v0 v1 v2 s` of the fresh intermediates. -/
def Q1_init {D : Type} (ht : List (hash_entry D)) (v0 v1 : Mem D) (v2 s : Mem Nat) : Q1State D :=
  { idx_shipdate := 0, idx_returnflag := 0, idx_discount := 0, idx_extendedprice := 0,
    shipdates := none, returnflags := none, discounts := none, extendedprices := none,
    vec0 := v0, vec1 := v1, vec2 := v2, sel := s, hash_table := ht }

/-! ## Float encoding (017-encode-float.c, lines 27-41 and 71-74) -/

/-- The value `mask` of `encode_float` for the bit pattern `x` of the float:
`-(int32_t)((x >> 31) | 0x80000000)` stored into a `uint32_t`, the negation
taken modulo `2^32`. -/
def encode_float_mask (x : Nat) : Nat :=
  (2 ^ 32 - ((x >>> 31) ||| 0x80000000)) % 2 ^ 32

/-- The value `x ^ mask` that `encode_float` hands to `htonl`. -/
def encode_float_bits (x : Nat) : Nat :=
  x ^^^ encode_float_mask x

/-- The four bytes, in memory order, of the `uint32_t` returned by `htonl(y)`:
network byte order, most significant byte first, on any host. -/
def htonl_bytes (y : Nat) : List Nat :=
  [y / 2 ^ 24 % 256, y / 2 ^ 16 % 256, y / 2 ^ 8 % 256, y % 256]

/-- `encode_float(f)` as the byte sequence of its result in memory, where `x` is
the bit pattern `*(uint32_t*)&f` of the float. -/
def encode_float (x : Nat) : List Nat :=
  htonl_bytes (encode_float_bits x)

/-- `memcmp` over two byte sequences: the sign of the first difference. -/
def memcmp : List Nat → List Nat → Int
  | a :: as, b :: bs => if a < b then -1 else if b < a then 1 else memcmp as bs
  | _, _ => 0

/-! ## Specification-side definitions -/

/-- The list of positions denoted by a selection of length `n`. -/
def selection (n : Int) (sel : Option (Mem Nat)) : List Nat :=
  match sel with
  | some s => (List.range n.toNat).map s
  | none => List.range n.toNat

/-- Generic form of a branching selection loop body: append `i` when `p i`. -/
def select_body (p : Nat → Bool) (st : Nat × Mem Nat) (i : Nat) : Nat × Mem Nat :=
  if p i then (st.1 + 1, st.2.write st.1 i) else st

/-- Spec-side definition (conjunction correctness): a single filter over
`0..n-1` that evaluates `c1[i] < v1 ∧ c2[i] < v2` and appends each qualifying
position to `res`; returns the count and `res`. -/
def FILTER_conj (n : Int) (res : Mem Nat) (c1 : Mem Int) (v1 : Int) (c2 : Mem Int) (v2 : Int) :
    Int × Mem Nat :=
  let st := (List.range n.toNat).foldl
    (fun (st : Nat × Mem Nat) i =>
      if c1 i < v1 ∧ c2 i < v2 then (st.1 + 1, st.2.write st.1 i) else st) (0, res)
  ((st.1 : Int), st.2)

/-- The selection-vector invariant for batch length `B`: strictly increasing
indices (hence no repeats), each below `B`. -/
def sel_inv (B : Nat) (l : List Nat) : Prop :=
  l.Pairwise (· < ·) ∧ ∀ i ∈ l, i < B

instance (B : Nat) (l : List Nat) : Decidable (sel_inv B l) := by
  unfold sel_inv
  infer_instance

/-- Reference semantics, one row at a time: if row `r` passes the filter, mark
the slot of its key valid, store the key, and add the row's revenue
`(1 - discount) * extendedprice` to the slot's sum. -/
def row_step {D : Type} [Add D] [Sub D] [Mul D] [One D]
    (ship : Mem Int) (rf : Mem (Fin 256)) (disc price : Mem D) (val : Int)
    (ht : List (hash_entry D)) (r : Nat) : Option (List (hash_entry D)) :=
  if ship r < val then
    (ht_mark ht (rf r).val (rf r)).bind
      (fun h => ht_add_sum h (rf r).val ((1 - disc r) * price r))
  else some ht

/-- Row-at-a-time reference run of the query over the rows `rows` of the
table, in list order. -/
def Q1_rows {D : Type} [Add D] [Sub D] [Mul D] [One D] (T : Lineitem D) (val : Int)
    (rows : List Nat) (ht : List (hash_entry D)) : Option (List (hash_entry D)) :=
  rows.foldlM (row_step T.l_shipdate T.l_returnflag T.l_discount T.l_extendedprice val) ht

/-- All four static scan cursors are at row `k`. -/
def cursors_at {D : Type} (st : Q1State D) (k : Int) : Prop :=
  st.idx_shipdate = k ∧ st.idx_returnflag = k ∧ st.idx_discount = k ∧ st.idx_extendedprice = k

instance {D : Type} (st : Q1State D) (k : Int) : Decidable (cursors_at st k) := by
  unfold cursors_at
  infer_instance

/-- Row `r` passes the filter and belongs to group `g`. -/
def qualifies {D : Type} (T : Lineitem D) (val : Int) (g : Nat) (r : Nat) : Bool :=
  decide (T.l_shipdate r < val) && decide ((T.l_returnflag r).val = g)

/-- The rows `r < C` with `shipdate[r] < val` and `returnflag[r] = g`, in row
order. -/
def group_rows {D : Type} (T : Lineitem D) (val : Int) (C : Nat) (g : Nat) : List Nat :=
  (List.range C).filter (qualifies T val g)

/-- The value `(1.0 - discount[r]) * extendedprice[r]` of row `r`. -/
def revenue {D : Type} [Sub D] [Mul D] [One D] (T : Lineitem D) (r : Nat) : D :=
  (1 - T.l_discount r) * T.l_extendedprice r

/-- The sum of the revenues of the rows of group `g`, added to `init` in row
order. -/
def group_sum {D : Type} [Add D] [Sub D] [Mul D] [One D] (T : Lineitem D) (val : Int)
    (C : Nat) (g : Nat) (init : D) : D :=
  (group_rows T val C g).foldl (fun acc r => acc + revenue T r) init

/-- The four scans are aligned in `st`: equal cursors and equal views. -/
def aligned {D : Type} (st : Q1State D) : Prop :=
  st.idx_returnflag = st.idx_shipdate ∧ st.idx_discount = st.idx_shipdate ∧
  st.idx_extendedprice = st.idx_shipdate ∧
  st.returnflags = st.shipdates ∧ st.discounts = st.shipdates ∧
  st.extendedprices = st.shipdates

instance {D : Type} (st : Q1State D) : Decidable (aligned st) := by
  unfold aligned
  infer_instance

/-- The sign-magnitude value order of non-NaN floats on their 32-bit patterns:
the pattern with sign bit `s` and magnitude `m` stands for `(-1)^s * m`. -/
def float_key (x : Nat) : Int :=
  if x / 2 ^ 31 % 2 = 1 then -((x % 2 ^ 31 : Nat) : Int) else ((x % 2 ^ 31 : Nat) : Int)

/-- The table of the concrete scenario: rows `(0,'A',0.05,1000)`,
`(1,'N',0.10,2000)`, `(2,'A',0.02,500)`, with `'A' = 65` and `'N' = 78`. -/
def scenario_table : Lineitem ℚ :=
  { l_shipdate := fun r => r
    l_returnflag := fun r => if r = 1 then 78 else 65
    l_discount := fun r => if r = 0 then 5 / 100 else if r = 1 then 10 / 100 else 2 / 100
    l_extendedprice := fun r => if r = 0 then 1000 else if r = 1 then 2000 else 500 }

/-- Every valid slot `k` of the table stores the canonical key
`returnflag = k`. -/
def canonical {D : Type} (ht : List (hash_entry D)) : Prop :=
  ∀ (k : Nat) (e : hash_entry D), ht[k]? = some e → e.valid = true → e.returnflag.val = k

/-- Every slot valid in `ht` is still valid in `ht1`, with the same key. -/
def slots_kept {D : Type} (ht ht1 : List (hash_entry D)) : Prop :=
  ∀ (k : Nat) (e : hash_entry D), ht[k]? = some e → e.valid = true →
    ∃ e1, ht1[k]? = some e1 ∧ e1.valid = true ∧ e1.returnflag = e.returnflag

instance {D : Type} (ht : List (hash_entry D)) : Decidable (canonical ht) :=
  decidable_of_iff (∀ k : Fin ht.length, ht[k].valid = true → ht[k].returnflag.val = k) (by
    constructor
    · intro h k e he hv
      obtain ⟨hk, hke⟩ := List.getElem?_eq_some.mp he
      have := h ⟨k, hk⟩
      simp only [Fin.getElem_fin] at this
      rw [hke] at this
      exact this hv
    · intro h k hv
      exact h k ht[k] (List.getElem?_eq_getElem k.isLt) hv)

instance {D : Type} (ht ht1 : List (hash_entry D)) : Decidable (slots_kept ht ht1) :=
  decidable_of_iff (∀ k : Fin ht.length, ht[k].valid = true →
      ∃ h : k.val < ht1.length, ht1[k.val].valid = true ∧
        ht1[k.val].returnflag = ht[k].returnflag) (by
    constructor
    · intro h k e he hv
      obtain ⟨hk, hke⟩ := List.getElem?_eq_some.mp he
      have := h ⟨k, hk⟩
      simp only [Fin.getElem_fin] at this
      rw [hke] at this
      obtain ⟨h1, h2, h3⟩ := this hv
      exact ⟨ht1[k], List.getElem?_eq_getElem h1, h2, h3⟩
    · intro h k hv
      obtain ⟨e1, he1, h2, h3⟩ := h k ht[k] (List.getElem?_eq_getElem k.isLt) hv
      obtain ⟨hk1, hke1⟩ := List.getElem?_eq_some.mp he1
      exact ⟨hk1, by rw [hke1]; exact h2, by rw [hke1]; exact h3⟩)

/-- No slot's sum has decreased from `ht` to `ht1`. -/
def sums_le {D : Type} [LE D] (ht ht1 : List (hash_entry D)) : Prop :=
  ∀ (k : Nat) (e : hash_entry D), ht[k]? = some e → ∃ e1, ht1[k]? = some e1 ∧ e.sum ≤ e1.sum

instance {D : Type} [LE D] [DecidableRel (fun a b : D => a ≤ b)] (ht ht1 : List (hash_entry D)) :
    Decidable (sums_le ht ht1) :=
  decidable_of_iff (∀ k : Fin ht.length,
      ∃ h : k.val < ht1.length, ht[k].sum ≤ ht1[k.val].sum) (by
    constructor
    · intro h k e he
      obtain ⟨hk, hke⟩ := List.getElem?_eq_some.mp he
      have := h ⟨k, hk⟩
      simp only [Fin.getElem_fin] at this
      rw [hke] at this
      obtain ⟨h1, h2⟩ := this
      exact ⟨ht1[k], List.getElem?_eq_getElem h1, h2⟩
    · intro h k
      obtain ⟨e1, he1, h2⟩ := h k ht[k] (List.getElem?_eq_getElem k.isLt)
      obtain ⟨hk1, hke1⟩ := List.getElem?_eq_some.mp he1
      exact ⟨hk1, by rw [hke1]; exact h2⟩)

/-- Every slot's sum satisfies `ok`. -/
def sums_ok {D : Type} (ok : D → Prop) (ht : List (hash_entry D)) : Prop :=
  ∀ (k : Nat) (e : hash_entry D), ht[k]? = some e → ok e.sum

instance {D : Type} (ok : D → Prop) [DecidablePred ok] (ht : List (hash_entry D)) :
    Decidable (sums_ok ok ht) :=
  decidable_of_iff (∀ k : Fin ht.length, ok ht[k].sum) (by
    constructor
    · intro h k e he
      obtain ⟨hk, hke⟩ := List.getElem?_eq_some.mp he
      have := h ⟨k, hk⟩
      simp only [Fin.getElem_fin] at this
      rw [hke] at this
      exact this
    · intro h k
      exact h k ht[k] (List.getElem?_eq_getElem k.isLt))

/-- A table all of whose rows are `(0, 'A', 2.0, 100)`: the discount exceeds 1,
so the value `(1.0 - discount) * extendedprice` of each row is `-100`. -/
def negative_table : Lineitem ℚ :=
  { l_shipdate := fun _ => 0
    l_returnflag := fun _ => 65
    l_discount := fun _ => 2
    l_extendedprice := fun _ => 100 }

/-- The batch length `n` of a cycle started in `st`: the value returned by
`SCAN_shipdate` (line 237). -/
def Q1_cycle_n {D : Type} (LINEITEM N : Int) (st : Q1State D) : Int :=
  (Q1_scan LINEITEM N st).1.ret

/-- The count `m` and selection vector `sel` the FILTER block of a cycle started
in `st` produces (line 243). -/
def Q1_cycle_sel {D : Type} (T : Lineitem D) (LINEITEM N val : Int) (st : Q1State D) :
    Int × Mem Nat :=
  FILTER_lt_date_col_date_val (Q1_cycle_n LINEITEM N st) st.sel
    (deref 0 T.l_shipdate (Q1_scan LINEITEM N st).1.view) val none

/-- Alternative A (branch-less):
`res[o] = col[i]; o += ((col[i] < val) & (col[i] % 2 == 0));`. -/
def alternative_A (SIZE : Nat) (col : Mem Int) (val : Int) (res : Mem Int) : Nat × Mem Int :=
  (List.range SIZE).foldl
    (fun st i =>
      (st.1 + (decide (col i < val) && decide (Int.tmod (col i) 2 = 0)).toNat,
        st.2.write st.1 (col i)))
    (0, res)

/-- Alternative B (mixed mode):
`if (col[i] < val) { res[o] = col[i]; o += (col[i] % 2 == 0); }`. -/
def alternative_B (SIZE : Nat) (col : Mem Int) (val : Int) (res : Mem Int) : Nat × Mem Int :=
  (List.range SIZE).foldl
    (fun st i =>
      if col i < val then
        (st.1 + (decide (Int.tmod (col i) 2 = 0)).toNat, st.2.write st.1 (col i))
      else st)
    (0, res)

/-- Alternative C (mixed mode):
`if (col[i] % 2 == 0) { res[o] = col[i]; o += (col[i] < val); }`. -/
def alternative_C (SIZE : Nat) (col : Mem Int) (val : Int) (res : Mem Int) : Nat × Mem Int :=
  (List.range SIZE).foldl
    (fun st i =>
      if Int.tmod (col i) 2 = 0 then
        (st.1 + (decide (col i < val)).toNat, st.2.write st.1 (col i))
      else st)
    (0, res)

/-- The branch-less selection loop of 029-branch-prediction.c:
`res[o] = i; o += (col[i] < val);`. -/
def branchless_selection (SIZE : Nat) (col : Mem Int) (val : Int) (res : Mem Nat) :
    Nat × Mem Nat :=
  (List.range SIZE).foldl
    (fun st i => (st.1 + (decide (col i < val)).toNat, st.2.write st.1 i))
    (0, res)

/-- Generic form of the four loop bodies: when `w i`, write `v i` at `res[o]`
and add `p i` to `o`. -/
def copy_body {α : Type} (w p : Nat → Bool) (v : Nat → α) (st : Nat × Mem α) (i : Nat) :
    Nat × Mem α :=
  if w i then (st.1 + (p i).toNat, st.2.write st.1 (v i)) else st

/-- The positions `i < SIZE` with `col[i] < val` and `col[i] % 2 == 0`, in
column order. -/
def conj_rows (SIZE : Nat) (col : Mem Int) (val : Int) : List Nat :=
  (List.range SIZE).filter (fun i => decide (col i < val) && decide (Int.tmod (col i) 2 = 0))

/-! ## Loop unrolling (026-unroll.c, lines 20-41)

The loops take the vector length as a parameter `SIZE`; the two functions of the
source run them at `STANDARD_VECTOR_SIZE`.  An `int` array is a map to `Int`,
and `-` on `int` wraps around modulo `2^32`. -/

/-- The macro `STANDARD_VECTOR_SIZE`. -/
def STANDARD_VECTOR_SIZE : Nat := 2048

/-- The subtraction `a - b` of two `int`, with 32-bit wrap-around: the
representative of `a - b` modulo `2^32` in `[-2^31, 2^31)`. -/
def int_sub (a b : Int) : Int :=
  (a - b + 2 ^ 31) % 2 ^ 32 - 2 ^ 31

/-- The loop of `PROJECT_sub_int_col_int_col`:
`for (i = 0; i < SIZE; i += 1) res[i] = col1[i] - col2[i];`. -/
def sub_loop (SIZE : Nat) (col1 col2 res : Mem Int) : Mem Int :=
  (List.range SIZE).foldl (fun res i => res.write i (int_sub (col1 i) (col2 i))) res

/-- The loop of `PROJECT_sub_int_col_int_col_unrolled`, entered with loop
variable `i`: `for (; i + 3 < SIZE; i += 4)` with the four assignments
`res[i] = ...`, `res[i+1] = ...`, `res[i+2] = ...`, `res[i+3] = ...`. -/
def sub_loop_unrolled (SIZE : Nat) (col1 col2 : Mem Int) (i : Nat) (res : Mem Int) : Mem Int :=
  if h : i + 3 < SIZE then
    sub_loop_unrolled SIZE col1 col2 (i + 4)
      ((((res.write i (int_sub (col1 i) (col2 i))).write (i + 1)
            (int_sub (col1 (i + 1)) (col2 (i + 1)))).write (i + 2)
          (int_sub (col1 (i + 2)) (col2 (i + 2)))).write (i + 3)
        (int_sub (col1 (i + 3)) (col2 (i + 3))))
  else res
termination_by SIZE - i
decreasing_by omega

/-- `PROJECT_sub_int_col_int_col(col1, col2, res)`: the array `res` after the
call. -/
def PROJECT_sub_int_col_int_col (col1 col2 res : Mem Int) : Mem Int :=
  sub_loop STANDARD_VECTOR_SIZE col1 col2 res

/-- `PROJECT_sub_int_col_int_col_unrolled(col1, col2, res)`: the array `res`
after the call; the loop starts with `i = 0`. -/
def PROJECT_sub_int_col_int_col_unrolled (col1 col2 res : Mem Int) : Mem Int :=
  sub_loop_unrolled STANDARD_VECTOR_SIZE col1 col2 0 res

/-! ## Checked accesses to the intermediates (023-intermediates.c, lines 54-163, 229-251)

The operators and one cycle of `Q1` once more, with every access to `sel`,
`vec0`, `vec1`, `vec2` and to the scanned column views checked.  An intermediate
is a list with one cell per entry of the `malloc`ed array; a cell is `none`
until the cycle writes it.  Reading a cell that is `none`, or accessing an
index outside the array or outside the rows a scan exposed, is a `violation`.
An access outside the hash table is a `key_fault`, the `none` of the unchecked
operators. -/

/-- Outcome of checked code. -/
inductive Checked (α : Type) where
  | ok (a : α)
  | key_fault
  | violation
deriving DecidableEq, Repr

/-- Sequencing: the first fault ends the run. -/
def Checked.bind {α β : Type} (x : Checked α) (f : α → Checked β) : Checked β :=
  match x with
  | .ok a => f a
  | .key_fault => .key_fault
  | .violation => .violation

/-- The result mapped through `f`. -/
def Checked.map {α β : Type} (f : α → β) (x : Checked α) : Checked β :=
  match x with
  | .ok a => .ok (f a)
  | .key_fault => .key_fault
  | .violation => .violation

theorem select_fold_spec (p : Nat → Bool) (is : List Nat) :
    ∀ (o : Nat) (res : Mem Nat),
      ((is.foldl (select_body p) (o, res)).1 = o + (is.filter p).length) ∧
      (∀ j, j < (is.filter p).length →
        (is.filter p)[j]? = some ((is.foldl (select_body p) (o, res)).2 (o + j))) ∧
      (∀ k, (k < o ∨ o + (is.filter p).length ≤ k) →
        (is.foldl (select_body p) (o, res)).2 k = res k) := by
  induction is with
  | nil => intro o res; simp
  | cons i is ih =>
    intro o res
    by_cases h : p i = true
    · obtain ⟨h1, h2, h3⟩ := ih (o + 1) (res.write o i)
      have hf : select_body p (o, res) i = (o + 1, res.write o i) := by
        simp [select_body, h]
      simp only [List.foldl_cons, hf, List.filter_cons, h, if_true, List.length_cons]
      refine ⟨by omega, ?_, ?_⟩
      · intro j hj
        cases j with
        | zero =>
          have := h3 o (Or.inl (Nat.lt_succ_self o))
          simp [this, Mem.write]
        | succ j =>
          have := h2 j (by omega)
          have e : o + (j + 1) = o + 1 + j := by omega
          simp only [List.getElem?_cons_succ, this, e]
      · intro k hk
        have := h3 k (by omega)
        rw [this]
        have : k ≠ o := by omega
        simp [Mem.write, this]
    · have hf : select_body p (o, res) i = (o, res) := by
        simp [select_body, h]
      simp only [List.foldl_cons, hf, List.filter_cons, h]
      exact ih o res

theorem FILTER_body_eq (col : Mem Int) (val : Int) :
    FILTER_body col val = select_body (fun i => decide (col i < val)) := by
  funext st i
  simp [FILTER_body, select_body]

theorem FILTER_fold_spec (col : Mem Int) (val : Int) (is : List Nat) :
    ∀ (o : Nat) (res : Mem Nat),
      ((is.foldl (FILTER_body col val) (o, res)).1
          = o + (is.filter (fun i => decide (col i < val))).length) ∧
      (∀ j, j < (is.filter (fun i => decide (col i < val))).length →
        (is.filter (fun i => decide (col i < val)))[j]?
          = some ((is.foldl (FILTER_body col val) (o, res)).2 (o + j))) ∧
      (∀ k, (k < o ∨ o + (is.filter (fun i => decide (col i < val))).length ≤ k) →
        (is.foldl (FILTER_body col val) (o, res)).2 k = res k) := by
  rw [FILTER_body_eq]
  exact select_fold_spec _ is

theorem FILTER_eq_fold (n : Int) (res : Mem Nat) (col : Mem Int) (val : Int)
    (sel : Option (Mem Nat)) :
    FILTER_lt_date_col_date_val n res col val sel
      = ((((selection n sel).foldl (FILTER_body col val) (0, res)).1 : Int),
          ((selection n sel).foldl (FILTER_body col val) (0, res)).2) := by
  cases sel with
  | none => simp [FILTER_lt_date_col_date_val, selection]
  | some s => simp [FILTER_lt_date_col_date_val, selection, List.foldl_map]

theorem FILTER_count (n : Int) (res : Mem Nat) (col : Mem Int) (val : Int)
    (sel : Option (Mem Nat)) :
    (FILTER_lt_date_col_date_val n res col val sel).1
      = (((selection n sel).filter (fun i => decide (col i < val))).length : Int) := by
  rw [FILTER_eq_fold]
  have := (FILTER_fold_spec col val (selection n sel) 0 res).1
  simp [this]

theorem selection_of_getElem? (L : List Nat) (r : Mem Nat)
    (h : ∀ j, j < L.length → L[j]? = some (r j)) :
    selection (L.length : Int) (some r) = L := by
  apply List.ext_getElem?
  intro j
  by_cases hj : j < L.length
  · rw [h j hj]
    simp [selection, List.getElem?_map, List.getElem?_range hj]
  · have h1 : L[j]? = none := List.getElem?_eq_none (by omega)
    rw [h1]
    apply List.getElem?_eq_none
    simp [selection]; omega

theorem FILTER_selection (n : Int) (res : Mem Nat) (col : Mem Int) (val : Int)
    (sel : Option (Mem Nat)) :
    selection (FILTER_lt_date_col_date_val n res col val sel).1
        (some (FILTER_lt_date_col_date_val n res col val sel).2)
      = (selection n sel).filter (fun i => decide (col i < val)) := by
  rw [FILTER_count]
  apply selection_of_getElem?
  intro j hj
  have := (FILTER_fold_spec col val (selection n sel) 0 res).2.1 j hj
  rw [this, FILTER_eq_fold]
  simp

theorem selection_length (n : Int) (sel : Option (Mem Nat)) :
    (selection n sel).length = n.toNat := by
  cases sel <;> simp [selection]

/-- C3: the filter returns the number of candidate positions with
`col[i] < val`, and the first `m` entries of its output selection are exactly
those positions in the order visited; hence `m ≤ n`. -/
theorem C3_filter_result (n : Nat) (res : Mem Nat) (col : Mem Int) (val : Int)
    (sel : Option (Mem Nat)) :
    (FILTER_lt_date_col_date_val n res col val sel).1
        = (((selection n sel).filter (fun i => decide (col i < val))).length : Int) ∧
    selection (FILTER_lt_date_col_date_val n res col val sel).1
        (some (FILTER_lt_date_col_date_val n res col val sel).2)
      = (selection n sel).filter (fun i => decide (col i < val)) ∧
    (selection n sel = match sel with
      | some s => (List.range n).map s
      | none => List.range n) ∧
    (FILTER_lt_date_col_date_val n res col val sel).1 ≤ (n : Int) := by
  refine ⟨FILTER_count _ _ _ _ _, FILTER_selection _ _ _ _ _, ?_, ?_⟩
  · cases sel <;> simp [selection]
  · rw [FILTER_count]
    have h1 := List.length_filter_le (fun i => decide (col i < val)) (selection n sel)
    have h2 := selection_length n sel
    have h3 : ((n : Int)).toNat = n := Int.toNat_ofNat n
    omega

theorem range_pairwise_lt (n : Nat) : (List.range n).Pairwise (· < ·) :=
  List.pairwise_lt_range n

/-- C4: the selection emitted by the filter is a strictly increasing
subsequence of its input selection (of `0..n-1` when none is given), so the
selection-vector invariant is preserved. -/
theorem C4_selection_monotonicity (n B : Nat) (res : Mem Nat) (col : Mem Int) (val : Int)
    (sel : Mem Nat) (hsel : sel_inv B (selection n (some sel))) :
    (List.Sublist
        (selection (FILTER_lt_date_col_date_val n res col val (some sel)).1
          (some (FILTER_lt_date_col_date_val n res col val (some sel)).2))
        (selection n (some sel)) ∧
      sel_inv B (selection (FILTER_lt_date_col_date_val n res col val (some sel)).1
          (some (FILTER_lt_date_col_date_val n res col val (some sel)).2))) ∧
    (List.Sublist
        (selection (FILTER_lt_date_col_date_val n res col val none).1
          (some (FILTER_lt_date_col_date_val n res col val none).2))
        (List.range n) ∧
      sel_inv n (selection (FILTER_lt_date_col_date_val n res col val none).1
          (some (FILTER_lt_date_col_date_val n res col val none).2))) := by
  have key : ∀ (s : Option (Mem Nat)) (B : Nat), sel_inv B (selection n s) →
      List.Sublist
        (selection (FILTER_lt_date_col_date_val n res col val s).1
          (some (FILTER_lt_date_col_date_val n res col val s).2))
        (selection n s) ∧
      sel_inv B (selection (FILTER_lt_date_col_date_val n res col val s).1
          (some (FILTER_lt_date_col_date_val n res col val s).2)) := by
    intro s B hs
    rw [FILTER_selection]
    refine ⟨List.filter_sublist _, hs.1.sublist (List.filter_sublist _), ?_⟩
    intro i hi
    exact hs.2 i (List.mem_of_mem_filter hi)
  refine ⟨key (some sel) B hsel, ?_⟩
  have h0 : selection (n : Int) none = List.range n := by simp [selection]
  have := key none n (by rw [h0]; exact ⟨range_pairwise_lt n, fun i hi => List.mem_range.mp hi⟩)
  rwa [h0] at this

theorem FILTER_conj_eq_fold (n : Int) (res : Mem Nat) (c1 : Mem Int) (v1 : Int) (c2 : Mem Int)
    (v2 : Int) :
    FILTER_conj n res c1 v1 c2 v2
      = ((((List.range n.toNat).foldl
            (select_body (fun i => decide (c1 i < v1) && decide (c2 i < v2))) (0, res)).1 : Int),
          ((List.range n.toNat).foldl
            (select_body (fun i => decide (c1 i < v1) && decide (c2 i < v2))) (0, res)).2) := by
  have : (fun (st : Nat × Mem Nat) i =>
      if c1 i < v1 ∧ c2 i < v2 then (st.1 + 1, st.2.write st.1 i) else st)
      = select_body (fun i => decide (c1 i < v1) && decide (c2 i < v2)) := by
    funext st i
    simp [select_body]
  simp [FILTER_conj, this]

/-- C5: chaining the filter on `c1 < v1` (no input selection) into the filter
on `c2 < v2` gives the count and selection of a single filter on the
conjunction: the increasing list of all `i < n` satisfying both. -/
theorem C5_conjunction_correctness (n : Nat) (res1 res2 : Mem Nat) (c1 c2 : Mem Int)
    (v1 v2 : Int) :
    FILTER_lt_date_col_date_val
        (FILTER_lt_date_col_date_val n res1 c1 v1 none).1 res2 c2 v2
        (some (FILTER_lt_date_col_date_val n res1 c1 v1 none).2)
      = FILTER_conj n res2 c1 v1 c2 v2 ∧
    selection
        (FILTER_lt_date_col_date_val
          (FILTER_lt_date_col_date_val n res1 c1 v1 none).1 res2 c2 v2
          (some (FILTER_lt_date_col_date_val n res1 c1 v1 none).2)).1
        (some (FILTER_lt_date_col_date_val
          (FILTER_lt_date_col_date_val n res1 c1 v1 none).1 res2 c2 v2
          (some (FILTER_lt_date_col_date_val n res1 c1 v1 none).2)).2)
      = (List.range n).filter (fun i => decide (c1 i < v1 ∧ c2 i < v2)) := by
  have hsel1 := FILTER_selection n res1 c1 v1 none
  have h0 : selection (n : Int) none = List.range n := by simp [selection]
  rw [h0] at hsel1
  have hL : ((List.range n).filter (fun i => decide (c1 i < v1))).filter
      (fun i => decide (c2 i < v2))
      = (List.range n).filter (fun i => decide (c1 i < v1) && decide (c2 i < v2)) := by
    rw [List.filter_filter]
    congr 1
    funext i
    exact Bool.and_comm _ _
  constructor
  · rw [FILTER_eq_fold _ res2, hsel1, FILTER_conj_eq_fold, FILTER_body_eq]
    have A := select_fold_spec (fun i => decide (c2 i < v2))
      ((List.range n).filter (fun i => decide (c1 i < v1))) 0 res2
    have B := select_fold_spec (fun i => decide (c1 i < v1) && decide (c2 i < v2))
      (List.range n) 0 res2
    rw [hL] at A
    simp only [Int.toNat_ofNat]
    obtain ⟨a1, a2, a3⟩ := A
    obtain ⟨b1, b2, b3⟩ := B
    refine Prod.ext ?_ ?_
    · simp only [a1, b1]
    · funext k
      simp only
      by_cases hk : k < ((List.range n).filter
          (fun i => decide (c1 i < v1) && decide (c2 i < v2))).length
      · have x := a2 k hk
        have y := b2 k hk
        rw [x] at y
        simpa using y
      · rw [a3 k (Or.inr (by omega)), b3 k (Or.inr (by omega))]
  · rw [FILTER_selection, hsel1, hL]
    congr 1
    funext i
    simp

theorem foldlM_option_congr {σ β : Type} (f g : σ → β → Option σ) (l : List β)
    (h : ∀ s, ∀ b ∈ l, f s b = g s b) : ∀ s, l.foldlM f s = l.foldlM g s := by
  induction l with
  | nil => intro s; rfl
  | cons b l ih =>
    intro s
    simp only [List.foldlM_cons]
    rw [h s b (List.mem_cons_self b l)]
    cases g s b with
    | none => rfl
    | some s1 =>
      exact ih (fun s b hb => h s b (List.mem_cons_of_mem _ hb)) s1

theorem ht_mark_eq {D : Type} (ht : List (hash_entry D)) (k : Nat) (c : Fin 256) :
    ht_mark ht k c = if h : k < ht.length then
      some (ht.set k { ht[k] with valid := true, returnflag := c }) else none := by
  unfold ht_mark
  by_cases h : k < ht.length
  · simp [h, List.getElem?_eq_getElem h]
  · simp [h, List.getElem?_eq_none (Nat.le_of_not_lt h)]

theorem ht_add_sum_eq {D : Type} [Add D] (ht : List (hash_entry D)) (k : Nat) (v : D) :
    ht_add_sum ht k v = if h : k < ht.length then
      some (ht.set k { ht[k] with sum := ht[k].sum + v }) else none := by
  unfold ht_add_sum
  by_cases h : k < ht.length
  · simp [h, List.getElem?_eq_getElem h]
  · simp [h, List.getElem?_eq_none (Nat.le_of_not_lt h)]

/-- Marking slot `k1` and adding to the sum of slot `k2` commute, failures
included. -/
theorem ht_mark_add_comm {D : Type} [Add D] (ht : List (hash_entry D)) (k1 : Nat) (c : Fin 256)
    (k2 : Nat) (v : D) :
    (ht_mark ht k1 c).bind (fun h => ht_add_sum h k2 v)
      = (ht_add_sum ht k2 v).bind (fun h => ht_mark h k1 c) := by
  simp only [ht_mark_eq, ht_add_sum_eq]
  by_cases h1 : k1 < ht.length <;> by_cases h2 : k2 < ht.length <;>
    simp [h1, h2, List.length_set]
  by_cases e : k1 = k2
  · subst e
    simp [List.getElem_set_self, List.set_set]
  · rw [List.set_comm _ _ _ e]
    simp [List.getElem_set_ne, e, Ne.symm e]

/-! ### Folds of writes -/

theorem write_fold_get {α : Type} (f : Nat → α) (L : List Nat) :
    ∀ (res : Mem α) (k : Nat),
      (L.foldl (fun r i => r.write i (f i)) res) k = if k ∈ L then f k else res k := by
  induction L with
  | nil => intro res k; simp
  | cons i L ih =>
    intro res k
    simp only [List.foldl_cons, ih, List.mem_cons]
    by_cases hk : k ∈ L
    · simp [hk]
    · by_cases e : k = i
      · subst e; simp [hk, Mem.write]
      · simp [hk, e, Mem.write]

theorem mark_fold_add_comm {D : Type} [Add D] (key : Nat → Nat) (c : Nat → Fin 256)
    (k : Nat) (v : D) (L : List Nat) :
    ∀ ht : List (hash_entry D),
      (L.foldlM (fun h i => ht_mark h (key i) (c i)) ht).bind (fun h => ht_add_sum h k v)
        = (ht_add_sum ht k v).bind (fun h => L.foldlM (fun h i => ht_mark h (key i) (c i)) h) := by
  induction L with
  | nil => intro ht; simp
  | cons i L ih =>
    intro ht
    simp only [List.foldlM_cons, Option.bind_eq_bind]
    rw [Option.bind_assoc]
    simp only [ih]
    rw [← Option.bind_assoc, ht_mark_add_comm, Option.bind_assoc]

theorem mark_then_add_fold {D : Type} [Add D] (key : Nat → Nat) (c : Nat → Fin 256)
    (v : Nat → D) (L : List Nat) :
    ∀ ht : List (hash_entry D),
      (L.foldlM (fun h i => ht_mark h (key i) (c i)) ht).bind
          (fun h => L.foldlM (fun h i => ht_add_sum h (key i) (v i)) h)
        = L.foldlM (fun h i => (ht_mark h (key i) (c i)).bind
            (fun h1 => ht_add_sum h1 (key i) (v i))) ht := by
  induction L with
  | nil => intro ht; simp
  | cons i L ih =>
    intro ht
    simp only [List.foldlM_cons, Option.bind_eq_bind]
    rw [Option.bind_assoc, Option.bind_assoc]
    congr 1
    funext h1
    rw [← Option.bind_assoc, mark_fold_add_comm, Option.bind_assoc]
    congr 1
    funext h2
    exact ih h2

theorem HASH_fold_split {D : Type} (col : Mem (Fin 256)) (L : List Nat) :
    ∀ (res : Mem Nat) (ht : List (hash_entry D)),
      L.foldlM (HASH_body col) (res, ht)
        = (L.foldlM (fun h i => ht_mark h (col i).val (col i)) ht).map
            (fun h => (L.foldl (fun r i => r.write i (col i).val) res, h)) := by
  induction L with
  | nil => intro res ht; simp
  | cons i L ih =>
    intro res ht
    simp only [List.foldlM_cons, Option.bind_eq_bind, List.foldl_cons, HASH_body]
    cases ht_mark ht (col i).val (col i) with
    | none => simp
    | some h1 => simp [ih]

/-! ### Operators driven by a selection vector -/

theorem PROJECT_sub_some {D : Type} [Sub D] (m : Int) (res col : Mem D) (v : D) (sel : Mem Nat) :
    (PROJECT_sub_double_val_double_col m res col v (some sel)).2
      = (selection m (some sel)).foldl (fun r i => r.write i (v - col i)) res := by
  simp [PROJECT_sub_double_val_double_col, selection, List.foldl_map]

theorem PROJECT_mul_some {D : Type} [Mul D] (m : Int) (res col1 col2 : Mem D) (sel : Mem Nat) :
    (PROJECT_mul_double_col_double_col m res col1 col2 (some sel)).2
      = (selection m (some sel)).foldl (fun r i => r.write i (col1 i * col2 i)) res := by
  simp [PROJECT_mul_double_col_double_col, selection, List.foldl_map]

theorem HASH_some {D : Type} (m : Int) (res : Mem Nat) (ht : List (hash_entry D))
    (col : Mem (Fin 256)) (sel : Mem Nat) :
    HASH_direct_char_col m res ht col (some sel)
      = ((selection m (some sel)).foldlM (HASH_body col) (res, ht)).map
          (fun st => (m, st.1, st.2)) := by
  simp [HASH_direct_char_col, selection, List.foldlM_map]

theorem AGGR_some {D : Type} [Add D] (m : Int) (ht : List (hash_entry D)) (hash : Mem Nat)
    (col : Mem D) (sel : Mem Nat) :
    AGGR_sum_double_col m ht hash col (some sel)
      = ((selection m (some sel)).foldlM (fun h i => ht_add_sum h (hash i) (col i)) ht).map
          (fun h => (m, h)) := by
  simp [AGGR_sum_double_col, selection, List.foldlM_map]

theorem foldlM_filter_option {σ : Type} (p : Nat → Bool) (f : σ → Nat → Option σ)
    (l : List Nat) :
    ∀ s, (l.filter p).foldlM f s = l.foldlM (fun s a => if p a then f s a else some s) s := by
  induction l with
  | nil => intro s; rfl
  | cons a l ih =>
    intro s
    by_cases h : p a = true
    · simp only [List.filter_cons, h, if_true, List.foldlM_cons, Option.bind_eq_bind]
      congr 1
      funext s1
      exact ih s1
    · simp only [List.filter_cons, h, List.foldlM_cons, Option.bind_eq_bind]
      simpa using ih s

/-- The operator blocks of one cycle act on the hash table like the
row-at-a-time reference run over the positions `0..n-1` of the batch. -/
theorem Q1_operators_hash_table {D : Type} [Add D] [Sub D] [Mul D] [One D] (n : Int)
    (sh : Mem Int) (rf : Mem (Fin 256)) (di pr : Mem D) (val : Int) (b : Q1Buffers D) :
    (Q1_operators n sh rf di pr val b).map (fun b1 => b1.hash_table)
      = (List.range n.toNat).foldlM (row_step sh rf di pr val) b.hash_table := by
  have hL : selection (FILTER_lt_date_col_date_val n b.sel sh val none).1
      (some (FILTER_lt_date_col_date_val n b.sel sh val none).2)
      = (List.range n.toNat).filter (fun i => decide (sh i < val)) := by
    rw [FILTER_selection]; simp [selection]
  unfold Q1_operators
  simp only [HASH_some, AGGR_some, PROJECT_mul_some, PROJECT_sub_some, hL, HASH_fold_split]
  generalize hLd : (List.range n.toNat).filter (fun i => decide (sh i < val)) = L
  have hrow : (List.range n.toNat).foldlM (row_step sh rf di pr val) b.hash_table
      = L.foldlM (fun h i => (ht_mark h (rf i).val (rf i)).bind
          (fun h1 => ht_add_sum h1 (rf i).val ((1 - di i) * pr i))) b.hash_table := by
    rw [← hLd, foldlM_filter_option]
    apply foldlM_option_congr
    intro s r _
    by_cases h : sh r < val <;> simp [row_step, h]
  rw [hrow, ← mark_then_add_fold]
  cases hm : L.foldlM (fun h i => ht_mark h (rf i).val (rf i)) b.hash_table with
  | none => simp
  | some h1 =>
    simp only [Option.map_some', Option.some_bind]
    have hagg : L.foldlM (fun h i => ht_add_sum h
          ((L.foldl (fun r i => r.write i (rf i).val) b.vec2) i)
          ((L.foldl (fun r i => r.write i
            ((L.foldl (fun r i => r.write i (1 - di i)) b.vec0) i * pr i)) b.vec1) i)) h1
        = L.foldlM (fun h i => ht_add_sum h (rf i).val ((1 - di i) * pr i)) h1 := by
      apply foldlM_option_congr
      intro s i hi
      rw [write_fold_get (fun i => (rf i).val), write_fold_get (fun i =>
        (L.foldl (fun r i => r.write i (1 - di i)) b.vec0) i * pr i),
        write_fold_get (fun i => 1 - di i)]
      simp [hi]
    rw [hagg]
    cases L.foldlM (fun h i => ht_add_sum h (rf i).val ((1 - di i) * pr i)) h1 with
    | none => simp
    | some h2 => simp

theorem deref_some_nat {α : Type} (null : α) (base : Mem α) (k : Nat) :
    deref null base (some (k : Int)) = fun i => base (k + i) := by
  funext i
  simp only [deref]
  congr 1

theorem Q1_rows_view {D : Type} [Add D] [Sub D] [Mul D] [One D] (T : Lineitem D) (val : Int)
    (k n : Nat) (ht : List (hash_entry D)) :
    (List.range n).foldlM (row_step (fun i => T.l_shipdate (k + i))
        (fun i => T.l_returnflag (k + i)) (fun i => T.l_discount (k + i))
        (fun i => T.l_extendedprice (k + i)) val) ht
      = Q1_rows T val (List.range' k n) ht := by
  rw [Q1_rows, List.range'_eq_map_range, List.foldlM_map]
  rfl

/-- Effect of one cycle started with all four cursors at row `k`. -/
theorem Q1_cycle_spec {D : Type} [Add D] [Sub D] [Mul D] [Zero D] [One D]
    (T : Lineitem D) (LINEITEM N val : Int) (st : Q1State D) (k : Nat)
    (hc : cursors_at st k) :
    (Q1_cycle T LINEITEM N val st).map
        (fun r => (r.1, r.2.idx_shipdate, r.2.idx_returnflag, r.2.idx_discount,
          r.2.idx_extendedprice, r.2.hash_table))
      = if LINEITEM - k ≤ 0 then some (0, (k : Int), (k : Int), (k : Int), (k : Int), st.hash_table)
        else (Q1_rows T val (List.range' k (min N (LINEITEM - k)).toNat) st.hash_table).map
          (fun h => (min N (LINEITEM - k), k + N, k + N, k + N, k + N, h)) := by
  obtain ⟨h1, h2, h3, h4⟩ := hc
  by_cases hr : LINEITEM - (k : Int) ≤ 0
  · simp only [hr, if_true]
    have hop := Q1_operators_hash_table (0 : Int) (deref 0 T.l_shipdate st.shipdates)
      (deref 0 T.l_returnflag st.returnflags) (deref 0 T.l_discount st.discounts)
      (deref 0 T.l_extendedprice st.extendedprices) val
      { vec0 := st.vec0, vec1 := st.vec1, vec2 := st.vec2, sel := st.sel,
        hash_table := st.hash_table }
    simp only [Int.toNat_zero, List.range_zero, List.foldlM_nil] at hop
    simp only [Q1_cycle, Q1_scan, SCAN_shipdate, SCAN_returnflag, SCAN_discount,
      SCAN_extendedprice, h1, h2, h3, h4, hr, if_true]
    cases hq : Q1_operators (0 : Int) (deref 0 T.l_shipdate st.shipdates)
      (deref 0 T.l_returnflag st.returnflags) (deref 0 T.l_discount st.discounts)
      (deref 0 T.l_extendedprice st.extendedprices) val
      { vec0 := st.vec0, vec1 := st.vec1, vec2 := st.vec2, sel := st.sel,
        hash_table := st.hash_table } with
    | none => rw [hq] at hop; simp at hop
    | some b =>
      rw [hq] at hop
      simp only [Option.map_some'] at hop
      simp only [Option.map_some']
      have e : b.hash_table = st.hash_table := by simpa using hop
      simp [e]
  · simp only [hr, if_false]
    have hop := Q1_operators_hash_table (min N (LINEITEM - k)) (deref 0 T.l_shipdate (some (k : Int)))
      (deref 0 T.l_returnflag (some (k : Int))) (deref 0 T.l_discount (some (k : Int)))
      (deref 0 T.l_extendedprice (some (k : Int))) val
      { vec0 := st.vec0, vec1 := st.vec1, vec2 := st.vec2, sel := st.sel,
        hash_table := st.hash_table }
    simp only [deref_some_nat, Q1_rows_view] at hop
    simp only [Q1_cycle, Q1_scan, SCAN_shipdate, SCAN_returnflag, SCAN_discount,
      SCAN_extendedprice, h1, h2, h3, h4, hr, if_false, deref_some_nat]
    rw [← hop]
    cases Q1_operators (min N (LINEITEM - k)) (fun i => T.l_shipdate (k + i))
      (fun i => T.l_returnflag (k + i)) (fun i => T.l_discount (k + i))
      (fun i => T.l_extendedprice (k + i)) val
      { vec0 := st.vec0, vec1 := st.vec1, vec2 := st.vec2, sel := st.sel,
        hash_table := st.hash_table } with
    | none => simp
    | some b => simp

theorem Q1_rows_append {D : Type} [Add D] [Sub D] [Mul D] [One D] (T : Lineitem D) (val : Int)
    (r1 r2 : List Nat) (ht : List (hash_entry D)) :
    Q1_rows T val (r1 ++ r2) ht = (Q1_rows T val r1 ht).bind (Q1_rows T val r2) := by
  simp [Q1_rows, List.foldlM_append]

/-- The loop of `Q1`, started with all cursors at row `k` and enough fuel, ends
like the row-at-a-time reference run over the rows `k .. LINEITEM-1`. -/
theorem Q1_loop_spec {D : Type} [Add D] [Sub D] [Mul D] [Zero D] [One D]
    (T : Lineitem D) (LINEITEM : Int) (N : Nat) (hN : 1 ≤ N) (val : Int) :
    ∀ (fuel : Nat) (st : Q1State D) (k : Nat), cursors_at st k →
      (LINEITEM - k).toNat < fuel →
      (Q1_loop T LINEITEM N val fuel st).map (fun s => s.hash_table)
        = Run.ofOption (Q1_rows T val (List.range' k (LINEITEM - k).toNat) st.hash_table) := by
  intro fuel
  induction fuel with
  | zero => intro st k _ hf; omega
  | succ fuel ih =>
    intro st k hc hf
    have cyc := Q1_cycle_spec T LINEITEM N val st k hc
    by_cases hr : LINEITEM - (k : Int) ≤ 0
    · simp only [hr, if_true] at cyc
      have h0 : (LINEITEM - (k : Int)).toNat = 0 := by omega
      rw [h0]
      simp only [List.range'_zero, Q1_rows, List.foldlM_nil]
      cases hq : Q1_cycle T LINEITEM N val st with
      | none => rw [hq] at cyc; simp at cyc
      | some r =>
        rw [hq] at cyc
        simp only [Option.map_some', Option.some.injEq, Prod.mk.injEq] at cyc
        simp only [Q1_loop, hq, cyc.1, lt_irrefl, if_false, Run.map, cyc.2.2.2.2.2]
        rfl
    · simp only [hr, if_false] at cyc
      have hsplit : List.range' k (LINEITEM - (k : Int)).toNat
          = List.range' k (min (N : Int) (LINEITEM - k)).toNat
            ++ List.range' (k + N) (LINEITEM - ((k + N : Nat) : Int)).toNat := by
        by_cases hle : (N : Int) ≤ LINEITEM - k
        · have e1 : (min (N : Int) (LINEITEM - k)).toNat = N := by omega
          rw [e1, List.range'_append_1]
          congr 1
          omega
        · have e1 : (min (N : Int) (LINEITEM - k)).toNat = (LINEITEM - (k : Int)).toNat := by
            omega
          have e2 : (LINEITEM - ((k + N : Nat) : Int)).toNat = 0 := by omega
          rw [e1, e2]
          simp
      rw [hsplit, Q1_rows_append]
      cases hq : Q1_cycle T LINEITEM N val st with
      | none =>
        rw [hq] at cyc
        cases hrows : Q1_rows T val (List.range' k (min (N : Int) (LINEITEM - k)).toNat)
            st.hash_table with
        | none => simp [Q1_loop, hq, Run.map, Run.ofOption]
        | some h => rw [hrows] at cyc; simp at cyc
      | some r =>
        rw [hq] at cyc
        cases hrows : Q1_rows T val (List.range' k (min (N : Int) (LINEITEM - k)).toNat)
            st.hash_table with
        | none => rw [hrows] at cyc; simp at cyc
        | some h =>
          rw [hrows] at cyc
          simp only [Option.map_some', Option.some.injEq, Prod.mk.injEq] at cyc
          obtain ⟨c1, c2, c3, c4, c5, c6⟩ := cyc
          have hpos : 0 < r.1 := by rw [c1]; omega
          have hc' : cursors_at r.2 ((k + N : Nat) : Int) := by
            refine ⟨?_, ?_, ?_, ?_⟩ <;> simp [*]
          have := ih r.2 (k + N) hc' (by omega)
          simp only [Q1_loop, hq, hpos, if_true, Option.some_bind]
          rw [this, c6]

theorem group_rows_succ {D : Type} (T : Lineitem D) (val : Int) (c g : Nat) :
    group_rows T val (c + 1) g
      = group_rows T val c g ++ (if qualifies T val g c then [c] else []) := by
  simp only [group_rows, List.range_succ, List.filter_append, List.filter_cons,
    List.filter_nil]

/-- The reference run over the rows `0..c-1`, when every key met is a slot of
the table: it succeeds, keeps the table length, and slot `g` ends with the
group's sum added to its initial sum, valid iff it was valid or the group is
non-empty, and with key `g` when the group is non-empty. -/
theorem Q1_rows_spec {D : Type} [Add D] [Sub D] [Mul D] [One D] (T : Lineitem D) (val : Int)
    (ht0 : List (hash_entry D)) :
    ∀ c : Nat, (∀ r, r < c → T.l_shipdate r < val → (T.l_returnflag r).val < ht0.length) →
      ∃ ht, Q1_rows T val (List.range c) ht0 = some ht ∧ ht.length = ht0.length ∧
        ∀ g e0, ht0[g]? = some e0 → ∃ e, ht[g]? = some e ∧
          e.sum = group_sum T val c g e0.sum ∧
          e.valid = (e0.valid || !(group_rows T val c g).isEmpty) ∧
          (group_rows T val c g ≠ [] → e.returnflag.val = g) ∧
          (group_rows T val c g = [] → e.returnflag = e0.returnflag) := by
  intro c
  induction c with
  | zero =>
    intro _
    refine ⟨ht0, by simp [Q1_rows], rfl, ?_⟩
    intro g e0 he
    exact ⟨e0, he, by simp [group_sum, group_rows], by simp [group_rows],
      by simp [group_rows], fun _ => rfl⟩
  | succ c ih =>
    intro hk
    obtain ⟨ht, hrun, hlen, hslots⟩ := ih (fun r hr => hk r (Nat.lt_succ_of_lt hr))
    rw [List.range_succ, Q1_rows_append, hrun]
    simp only [Option.some_bind, Q1_rows, List.foldlM_cons, List.foldlM_nil, row_step]
    by_cases hq : T.l_shipdate c < val
    · have hkey : (T.l_returnflag c).val < ht.length := by
        rw [hlen]; exact hk c (Nat.lt_succ_self c) hq
      simp only [hq, if_true, ht_mark_eq, ht_add_sum_eq, hkey, dif_pos, Option.some_bind,
        List.length_set, Option.bind_eq_bind, List.getElem_set_self, List.set_set]
      refine ⟨_, rfl, by simp [hlen], ?_⟩
      intro g e0 he
      obtain ⟨e, hge, hsum, hvalid, hrf1, hrf2⟩ := hslots g e0 he
      by_cases hg : (T.l_returnflag c).val = g
      · have hqual : qualifies T val g c = true := by simp [qualifies, hq, hg]
        have hge' : ht[(T.l_returnflag c).val]? = some e := by rw [hg]; exact hge
        have hget : ht[(T.l_returnflag c).val] = e := by
          rw [List.getElem?_eq_getElem hkey] at hge'
          exact Option.some.inj hge'
        refine ⟨_, by rw [← hg, List.getElem?_set_self hkey], ?_, ?_, ?_, ?_⟩
        · simp [group_sum, group_rows_succ, hqual, List.foldl_append, hget]
          rw [hsum]
          rfl
        · simp [group_rows_succ, hqual]
        · intro _; exact hg
        · intro h; simp [group_rows_succ, hqual] at h
      · have hqual : qualifies T val g c = false := by simp [qualifies, hg]
        refine ⟨e, by rw [List.getElem?_set_ne hg]; exact hge, ?_, ?_, ?_, ?_⟩
        · simpa [group_sum, group_rows_succ, hqual] using hsum
        · simpa [group_rows_succ, hqual] using hvalid
        · simpa [group_rows_succ, hqual] using hrf1
        · simpa [group_rows_succ, hqual] using hrf2
    · simp only [hq, if_false, Option.pure_def, Option.bind_eq_bind, Option.some_bind]
      refine ⟨ht, by simp, hlen, ?_⟩
      intro g e0 he
      obtain ⟨e, hge, hsum, hvalid, hrf1, hrf2⟩ := hslots g e0 he
      have hqual : qualifies T val g c = false := by simp [qualifies, hq]
      refine ⟨e, hge, ?_, ?_, ?_, ?_⟩
      · simpa [group_sum, group_rows_succ, hqual] using hsum
      · simpa [group_rows_succ, hqual] using hvalid
      · simpa [group_rows_succ, hqual] using hrf1
      · simpa [group_rows_succ, hqual] using hrf2

theorem Q1_cycle_scan {D : Type} [Add D] [Sub D] [Mul D] [Zero D] [One D]
    (T : Lineitem D) (LINEITEM N val : Int) (st : Q1State D) (r : Int × Q1State D)
    (hr : Q1_cycle T LINEITEM N val st = some r) :
    r.1 = (SCAN_shipdate LINEITEM N st.idx_shipdate st.shipdates).ret ∧
    r.2.idx_shipdate = (SCAN_shipdate LINEITEM N st.idx_shipdate st.shipdates).idx := by
  unfold Q1_cycle at hr
  simp only at hr
  split at hr
  · simp at hr
  · simp only [Option.some.injEq] at hr
    subst hr
    simp [Q1_scan]

/-- The loop of `Q1` never needs more cycles than one more than the number of
rows left, whatever the batch size: it does not run out of fuel. -/
theorem Q1_loop_fuel {D : Type} [Add D] [Sub D] [Mul D] [Zero D] [One D]
    (T : Lineitem D) (LINEITEM N val : Int) :
    ∀ (fuel : Nat) (st : Q1State D), (LINEITEM - st.idx_shipdate).toNat < fuel →
      Q1_loop T LINEITEM N val fuel st ≠ .outOfFuel := by
  intro fuel
  induction fuel with
  | zero => intro st h; omega
  | succ fuel ih =>
    intro st h
    simp only [Q1_loop]
    cases hq : Q1_cycle T LINEITEM N val st with
    | none => simp
    | some r =>
      obtain ⟨h1, h2⟩ := Q1_cycle_scan T LINEITEM N val st r hq
      simp only
      by_cases hpos : 0 < r.1
      · simp only [hpos, if_true]
        apply ih
        rw [h2]
        rw [h1] at hpos
        unfold SCAN_shipdate at hpos ⊢
        by_cases hrows : LINEITEM - st.idx_shipdate ≤ 0
        · simp [hrows] at hpos
        · simp only [hrows, if_false] at hpos ⊢
          omega
      · simp [hpos]

theorem Run.map_eq_finished {σ τ : Type} (f : σ → τ) (r : Run σ) (t : τ)
    (h : r.map f = .finished t) : ∃ s, r = .finished s ∧ f s = t := by
  cases r with
  | finished s => exact ⟨s, rfl, by simpa [Run.map] using h⟩
  | fault => simp [Run.map] at h
  | outOfFuel => simp [Run.map] at h

/-- A call of `Q1` with all cursors at row `k` and batch size `N ≥ 1` ends like
the row-at-a-time reference run over the rows `k .. LINEITEM-1`. -/
theorem Q1_spec {D : Type} [Add D] [Sub D] [Mul D] [Zero D] [One D]
    (T : Lineitem D) (LINEITEM : Int) (N : Nat) (hN : 1 ≤ N) (val : Int)
    (st : Q1State D) (k : Nat) (hc : cursors_at st k) :
    (Q1 T LINEITEM N val st).map (fun s => s.hash_table)
      = Run.ofOption (Q1_rows T val (List.range' k (LINEITEM - k).toNat) st.hash_table) := by
  unfold Q1
  have h1 : st.idx_shipdate = k := hc.1
  rw [h1]
  exact Q1_loop_spec T LINEITEM N hN val _ _ k ⟨rfl, hc.2.1, hc.2.2.1, hc.2.2.2⟩
    (Nat.lt_succ_self _)

theorem Q1_init_spec {D : Type} [Add D] [Sub D] [Mul D] [Zero D] [One D]
    (T : Lineitem D) (C N : Nat) (hN : 1 ≤ N) (val : Int)
    (ht : List (hash_entry D)) (v0 v1 : Mem D) (v2 s : Mem Nat) :
    (Q1 T C N val (Q1_init ht v0 v1 v2 s)).map (fun s => s.hash_table)
      = Run.ofOption (Q1_rows T val (List.range C) ht) := by
  have h := Q1_spec T C N hN val (Q1_init ht v0 v1 v2 s) 0
    (by simp [cursors_at, Q1_init])
  simpa [List.range_eq_range', Q1_init] using h

/-- C1: after a full run of `Q1` from an all-invalid, zero-sum hash table in
which every returnflag of the table is addressable, with any batch size
`N ≥ 1`, the sum stored in slot `g` is the sum, in row order, of
`(1 - discount[r]) * extendedprice[r]` over exactly the rows `r` with
`shipdate[r] < val` and `returnflag[r] = g`. -/
theorem C1_aggregate_correctness {D : Type} [Add D] [Sub D] [Mul D] [Zero D] [One D]
    (T : Lineitem D) (C N K : Nat) (val : Int) (hN : 1 ≤ N)
    (hkeys : ∀ r, r < C → (T.l_returnflag r).val < K)
    (v0 v1 : Mem D) (v2 s : Mem Nat) :
    ∃ st, Q1 T C N val
        (Q1_init (List.replicate K { valid := false, returnflag := 0, sum := 0 }) v0 v1 v2 s)
        = .finished st ∧
      st.hash_table.length = K ∧
      ∀ g, g < K → ∃ e, st.hash_table[g]? = some e ∧
        e.sum = ((List.range C).filter (fun r =>
            decide (T.l_shipdate r < val) && decide ((T.l_returnflag r).val = g))).foldl
          (fun acc r => acc + (1 - T.l_discount r) * T.l_extendedprice r) 0 := by
  obtain ⟨ht, hrun, hlen, hslots⟩ := Q1_rows_spec T val
    (List.replicate K ({ valid := false, returnflag := 0, sum := 0 } : hash_entry D)) C
    (fun r hr _ => by simpa using hkeys r hr)
  have h := Q1_init_spec T C N hN val
    (List.replicate K ({ valid := false, returnflag := 0, sum := 0 } : hash_entry D)) v0 v1 v2 s
  rw [hrun] at h
  obtain ⟨st, hst, hht⟩ := Run.map_eq_finished _ _ _ h
  refine ⟨st, hst, by rw [hht, hlen]; simp, ?_⟩
  intro g hg
  obtain ⟨e, he, hsum, _⟩ := hslots g { valid := false, returnflag := 0, sum := 0 }
    (by simp [List.getElem?_replicate, hg])
  exact ⟨e, by rw [hht]; exact he, hsum⟩

/-- C2: two full runs of `Q1` over the same table from the same initial hash
table and fresh cursors, with batch sizes `N1, N2 ≥ 1`, end with identical hash
tables: both end like the row-at-a-time reference run, and both finish when the
keys met are addressable. -/
theorem C2_batch_size_invariance {D : Type} [Add D] [Sub D] [Mul D] [Zero D] [One D]
    (T : Lineitem D) (C N1 N2 : Nat) (val : Int) (h1 : 1 ≤ N1) (h2 : 1 ≤ N2)
    (ht : List (hash_entry D)) (v0 v1 w0 w1 : Mem D) (v2 s w2 t : Mem Nat) :
    (Q1 T C N1 val (Q1_init ht v0 v1 v2 s)).map (fun s => s.hash_table)
      = (Q1 T C N2 val (Q1_init ht w0 w1 w2 t)).map (fun s => s.hash_table) ∧
    (Q1 T C N1 val (Q1_init ht v0 v1 v2 s)).map (fun s => s.hash_table)
      = Run.ofOption (Q1_rows T val (List.range C) ht) ∧
    ((∀ r, r < C → T.l_shipdate r < val → (T.l_returnflag r).val < ht.length) →
      ∃ st1 st2, Q1 T C N1 val (Q1_init ht v0 v1 v2 s) = .finished st1 ∧
        Q1 T C N2 val (Q1_init ht w0 w1 w2 t) = .finished st2 ∧
        st1.hash_table = st2.hash_table) := by
  have e1 := Q1_init_spec T C N1 h1 val ht v0 v1 v2 s
  have e2 := Q1_init_spec T C N2 h2 val ht w0 w1 w2 t
  refine ⟨e1.trans e2.symm, e1, ?_⟩
  intro hk
  obtain ⟨h, hrun, _⟩ := Q1_rows_spec T val ht C hk
  rw [hrun] at e1 e2
  obtain ⟨st1, hs1, hh1⟩ := Run.map_eq_finished _ _ _ e1
  obtain ⟨st2, hs2, hh2⟩ := Run.map_eq_finished _ _ _ e2
  exact ⟨st1, st2, hs1, hs2, hh1.trans hh2.symm⟩

/-- Wrapping to 32 bits leaves an integer that fits in `int` as it is. -/
theorem int_wrap_eq (x : Int) (h1 : -2147483648 ≤ x) (h2 : x < 2147483648) :
    int_wrap x = x := by
  have h0 : int_wrap x = (x + 2147483648) % 4294967296 - 2147483648 := by
    unfold int_wrap; norm_num
  omega

/-- The contract of C6 for the scans over exact integers, where it holds for
every cursor, cardinality and request size. -/
theorem SCAN_exact_contract (LINEITEM n idx : Int) (res : Option Int) :
    (LINEITEM - idx ≤ 0 →
      SCAN_shipdate LINEITEM n idx res = ⟨0, idx, res⟩ ∧
      SCAN_returnflag LINEITEM n idx res = ⟨0, idx, res⟩ ∧
      SCAN_discount LINEITEM n idx res = ⟨0, idx, res⟩ ∧
      SCAN_extendedprice LINEITEM n idx res = ⟨0, idx, res⟩) ∧
    (0 < LINEITEM - idx →
      SCAN_shipdate LINEITEM n idx res = ⟨min n (LINEITEM - idx), idx + n, some idx⟩ ∧
      SCAN_returnflag LINEITEM n idx res = ⟨min n (LINEITEM - idx), idx + n, some idx⟩ ∧
      SCAN_discount LINEITEM n idx res = ⟨min n (LINEITEM - idx), idx + n, some idx⟩ ∧
      SCAN_extendedprice LINEITEM n idx res
        = ⟨min n (LINEITEM - idx), idx + n, some idx⟩) := by
  constructor
  · intro h
    simp [SCAN_shipdate, SCAN_returnflag, SCAN_discount, SCAN_extendedprice, h]
  · intro h
    have h' : ¬ (LINEITEM - idx ≤ 0) := not_le.mpr h
    simp [SCAN_shipdate, SCAN_returnflag, SCAN_discount, SCAN_extendedprice, h']

/-- C6, counterexample: with 32-bit `int` the contract fails outside the `int`
range.  At `LINEITEM = 600000000`, cursor `-2000000000` and `n = 1` there are
`2600000000 > 0` rows left, yet `rows` wraps to a negative number and each scan
returns 0 with cursor and view unchanged.  At cursor 1 and `n = 2147483647`
there are rows left, but the cursor wraps to `-2147483648` instead of
becoming `idx + n = 2147483648`. -/
theorem C6_scan_contract_counterexample :
    0 < (600000000 : Int) - (-2000000000) ∧
    SCAN_shipdate_int 600000000 1 (-2000000000) none = ⟨0, -2000000000, none⟩ ∧
    SCAN_returnflag_int 600000000 1 (-2000000000) none = ⟨0, -2000000000, none⟩ ∧
    SCAN_discount_int 600000000 1 (-2000000000) none = ⟨0, -2000000000, none⟩ ∧
    SCAN_extendedprice_int 600000000 1 (-2000000000) none = ⟨0, -2000000000, none⟩ ∧
    SCAN_shipdate_int 600000000 1 (-2000000000) none
      ≠ ⟨min 1 (600000000 - (-2000000000)), -2000000000 + 1, some (-2000000000)⟩ ∧
    0 < (600000000 : Int) - 1 ∧
    SCAN_shipdate_int 600000000 2147483647 1 none = ⟨599999999, -2147483648, some 1⟩ ∧
    SCAN_shipdate_int 600000000 2147483647 1 none
      ≠ ⟨min 2147483647 (600000000 - 1), 1 + 2147483647, some 1⟩ := by
  decide

/-- C6, amended: when `rows = LINEITEM - idx` fits in `int` and, if rows are
left, so does `idx + n`, a scan call returns 0 and leaves cursor and output view
unchanged when `rows ≤ 0`; otherwise it exposes the view starting at row `idx`,
sets the cursor to `idx + n` (not `idx` plus the rows emitted) and returns
`min n rows`.  This holds for each of the four column scans with 32-bit
arithmetic, which then agree with the scans over exact integers. -/
theorem C6_scan_contract_in_range (LINEITEM n idx : Int) (res : Option Int)
    (hrows : -2147483648 ≤ LINEITEM - idx ∧ LINEITEM - idx < 2147483648)
    (hidx : 0 < LINEITEM - idx → -2147483648 ≤ idx + n ∧ idx + n < 2147483648) :
    (LINEITEM - idx ≤ 0 →
      SCAN_shipdate_int LINEITEM n idx res = ⟨0, idx, res⟩ ∧
      SCAN_returnflag_int LINEITEM n idx res = ⟨0, idx, res⟩ ∧
      SCAN_discount_int LINEITEM n idx res = ⟨0, idx, res⟩ ∧
      SCAN_extendedprice_int LINEITEM n idx res = ⟨0, idx, res⟩) ∧
    (0 < LINEITEM - idx →
      SCAN_shipdate_int LINEITEM n idx res
        = ⟨min n (LINEITEM - idx), idx + n, some idx⟩ ∧
      SCAN_returnflag_int LINEITEM n idx res
        = ⟨min n (LINEITEM - idx), idx + n, some idx⟩ ∧
      SCAN_discount_int LINEITEM n idx res
        = ⟨min n (LINEITEM - idx), idx + n, some idx⟩ ∧
      SCAN_extendedprice_int LINEITEM n idx res
        = ⟨min n (LINEITEM - idx), idx + n, some idx⟩) ∧
    (SCAN_shipdate_int LINEITEM n idx res = SCAN_shipdate LINEITEM n idx res ∧
      SCAN_returnflag_int LINEITEM n idx res = SCAN_returnflag LINEITEM n idx res ∧
      SCAN_discount_int LINEITEM n idx res = SCAN_discount LINEITEM n idx res ∧
      SCAN_extendedprice_int LINEITEM n idx res
        = SCAN_extendedprice LINEITEM n idx res) := by
  have hw : int_wrap (LINEITEM - idx) = LINEITEM - idx :=
    int_wrap_eq _ hrows.1 hrows.2
  refine ⟨?_, ?_, ?_⟩
  · intro h
    simp [SCAN_shipdate_int, SCAN_returnflag_int, SCAN_discount_int,
      SCAN_extendedprice_int, hw, h]
  · intro h
    have h' : ¬ (LINEITEM - idx ≤ 0) := not_le.mpr h
    have hw2 : int_wrap (idx + n) = idx + n := int_wrap_eq _ (hidx h).1 (hidx h).2
    simp [SCAN_shipdate_int, SCAN_returnflag_int, SCAN_discount_int,
      SCAN_extendedprice_int, hw, hw2, h']
  · by_cases h : LINEITEM - idx ≤ 0
    · simp [SCAN_shipdate_int, SCAN_returnflag_int, SCAN_discount_int,
        SCAN_extendedprice_int, SCAN_shipdate, SCAN_returnflag, SCAN_discount,
        SCAN_extendedprice, hw, h]
    · have hw2 : int_wrap (idx + n) = idx + n :=
        int_wrap_eq _ (hidx (not_le.mp h)).1 (hidx (not_le.mp h)).2
      simp [SCAN_shipdate_int, SCAN_returnflag_int, SCAN_discount_int,
        SCAN_extendedprice_int, SCAN_shipdate, SCAN_returnflag, SCAN_discount,
        SCAN_extendedprice, hw, hw2, h]

/-- The amended scan contract at the last, partial batch of a 3-row table:
cursor 2, request size 2, one row left. -/
theorem C6_scan_contract_in_range_witness :
    (-2147483648 ≤ (3 : Int) - 2 ∧ (3 : Int) - 2 < 2147483648) ∧
    SCAN_shipdate_int 3 2 2 none = ⟨1, 4, some 2⟩ ∧
    SCAN_shipdate_int 3 2 2 none = SCAN_shipdate 3 2 2 none := by
  have h := C6_scan_contract_in_range 3 2 2 none (by decide) (by intro _; decide)
  refine ⟨by decide, ?_, h.2.2.1⟩
  have h2 := (h.2.1 (by decide)).1
  rw [h2]
  decide

theorem Q1_scan_aligned {D : Type} (LINEITEM N : Int) (st : Q1State D) (h : aligned st) :
    (Q1_scan LINEITEM N st).2.1 = (Q1_scan LINEITEM N st).1 ∧
    (Q1_scan LINEITEM N st).2.2.1 = (Q1_scan LINEITEM N st).1 ∧
    (Q1_scan LINEITEM N st).2.2.2 = (Q1_scan LINEITEM N st).1 := by
  obtain ⟨a1, a2, a3, a4, a5, a6⟩ := h
  simp [Q1_scan, SCAN_shipdate, SCAN_returnflag, SCAN_discount, SCAN_extendedprice,
    a1, a2, a3, a4, a5, a6]

theorem Q1_cycle_aligned {D : Type} [Add D] [Sub D] [Mul D] [Zero D] [One D]
    (T : Lineitem D) (LINEITEM N val : Int) (st : Q1State D) (h : aligned st)
    (r : Int × Q1State D) (hr : Q1_cycle T LINEITEM N val st = some r) : aligned r.2 := by
  obtain ⟨s1, s2, s3⟩ := Q1_scan_aligned LINEITEM N st h
  unfold Q1_cycle at hr
  simp only at hr
  split at hr
  · simp at hr
  · simp only [Option.some.injEq] at hr
    subst hr
    simp [aligned, s1, s2, s3]

theorem Q1_cycles_aligned {D : Type} [Add D] [Sub D] [Mul D] [Zero D] [One D]
    (T : Lineitem D) (LINEITEM N val : Int) :
    ∀ (k : Nat) (st0 st : Q1State D), aligned st0 →
      Q1_cycles T LINEITEM N val k st0 = some st → aligned st := by
  intro k
  induction k with
  | zero =>
    intro st0 st h0 h
    simp only [Q1_cycles, Option.some.injEq] at h
    exact h ▸ h0
  | succ k ih =>
    intro st0 st h0 h
    simp only [Q1_cycles] at h
    split at h
    · simp at h
    · rename_i r hr
      split at h
      · exact ih r.2 st (Q1_cycle_aligned T LINEITEM N val st0 h0 r hr) h
      · simp at h

/-- C7: in every cycle of `Q1` started with the four cursors at 0, the four
scans start from equal cursors and give equal results: the same row count, the
same cursor and the same view offset.  So the count taken from `SCAN_shipdate`
is the length of every sibling batch, and position `i` of every sibling view is
the same source row. -/
theorem C7_positional_alignment {D : Type} [Add D] [Sub D] [Mul D] [Zero D] [One D]
    (T : Lineitem D) (LINEITEM N val : Int) (ht : List (hash_entry D))
    (v0 v1 : Mem D) (v2 s : Mem Nat) (k : Nat) (st : Q1State D)
    (hst : Q1_cycles T LINEITEM N val k (Q1_init ht v0 v1 v2 s) = some st) :
    (st.idx_returnflag = st.idx_shipdate ∧ st.idx_discount = st.idx_shipdate ∧
      st.idx_extendedprice = st.idx_shipdate) ∧
    (SCAN_returnflag LINEITEM N st.idx_returnflag st.returnflags
        = SCAN_shipdate LINEITEM N st.idx_shipdate st.shipdates ∧
      SCAN_discount LINEITEM N st.idx_discount st.discounts
        = SCAN_shipdate LINEITEM N st.idx_shipdate st.shipdates ∧
      SCAN_extendedprice LINEITEM N st.idx_extendedprice st.extendedprices
        = SCAN_shipdate LINEITEM N st.idx_shipdate st.shipdates) ∧
    (∀ (off : Int) (i : Nat),
      (SCAN_shipdate LINEITEM N st.idx_shipdate st.shipdates).view = some off →
      deref 0 T.l_shipdate (Q1_scan LINEITEM N st).1.view i = T.l_shipdate (off + i).toNat ∧
      deref 0 T.l_returnflag (Q1_scan LINEITEM N st).2.1.view i
        = T.l_returnflag (off + i).toNat ∧
      deref 0 T.l_discount (Q1_scan LINEITEM N st).2.2.1.view i
        = T.l_discount (off + i).toNat ∧
      deref 0 T.l_extendedprice (Q1_scan LINEITEM N st).2.2.2.view i
        = T.l_extendedprice (off + i).toNat) := by
  have hal : aligned st := Q1_cycles_aligned T LINEITEM N val k _ st
    (by simp [aligned, Q1_init]) hst
  have hsc := Q1_scan_aligned LINEITEM N st hal
  refine ⟨⟨hal.1, hal.2.1, hal.2.2.1⟩, hsc, ?_⟩
  intro off i hv
  obtain ⟨s1, s2, s3⟩ := hsc
  rw [s1, s2, s3]
  have hv' : (Q1_scan LINEITEM N st).1.view = some off := hv
  simp [hv', deref]

/-! ### Hash-table size and float encoding -/

/-- C8: the table allocated in `main` has `UCHAR_MAX = 255` slots, so the key
255 of an unsigned char column is not a slot: `HASH_direct_char_col` on a
one-row batch holding the key 255 accesses the table out of bounds, with and
without a selection vector, while the key 254 is served. -/
theorem C8_key_255_out_of_table :
    (main_hash_table ℚ).length = 255 ∧
    HASH_direct_char_col 1 (fun _ => 0) (main_hash_table ℚ) (fun _ => (255 : Fin 256)) none
      = none ∧
    HASH_direct_char_col 1 (fun _ => 0) (main_hash_table ℚ) (fun _ => (255 : Fin 256))
      (some (fun j => j)) = none ∧
    (HASH_direct_char_col 1 (fun _ => 0) (main_hash_table ℚ) (fun _ => (254 : Fin 256))
      none).isSome = true := by
  have hl : (main_hash_table ℚ).length = 255 := by
    rw [main_hash_table, List.length_replicate]; rfl
  have hr : List.range 1 = [0] := rfl
  have h255 : ((255 : Fin 256) : Nat) = 255 := rfl
  have h254 : ((254 : Fin 256) : Nat) = 254 := rfl
  refine ⟨hl, ?_, ?_, ?_⟩
  · simp [HASH_direct_char_col, HASH_body, ht_mark_eq, hl, hr, h255]
  · simp [HASH_direct_char_col, HASH_body, ht_mark_eq, hl, hr, h255]
  · simp [HASH_direct_char_col, HASH_body, ht_mark_eq, hl, hr, h254]

/-- C9: `encode_float` does not preserve the order of `-1.0f < 1.0f` (bit
patterns `0xBF800000`, `0x3F800000`): for the negative float the mask is
`0x7FFFFFFF`, which leaves the sign bit as it is; the encoding of `-1.0f` is
`0xC07FFFFF`, that of `1.0f` is `0xBF800000`, and `memcmp` of the encodings is
positive.  The three checks of `main` (`e < pi`, `-pi < pi`, `-pi < -e`, on
the patterns of `2.718f` and `3.1415f`) come out negative as expected. -/
theorem C9_encode_float_order_broken :
    float_key 0xBF800000 < float_key 0x3F800000 ∧
    encode_float_mask 0xBF800000 = 0x7FFFFFFF ∧
    encode_float_bits 0xBF800000 = 0xC07FFFFF ∧
    encode_float_bits 0x3F800000 = 0xBF800000 ∧
    ¬ (encode_float_bits 0xBF800000 < encode_float_bits 0x3F800000) ∧
    memcmp (encode_float 0xBF800000) (encode_float 0x3F800000) = 1 ∧
    memcmp (encode_float 0x402DF3B6) (encode_float 0x40490E56) < 0 ∧
    memcmp (encode_float 0xC0490E56) (encode_float 0x40490E56) < 0 ∧
    memcmp (encode_float 0xC0490E56) (encode_float 0xC02DF3B6) < 0 := by
  refine ⟨by decide, by decide, by decide, by decide, by decide, by decide, by decide,
    by decide, by decide⟩

theorem scenario_keys (r : Nat) : (scenario_table.l_returnflag r).val < 255 := by
  simp only [scenario_table]
  split <;> decide

/-- Witness of C1 on the concrete scenario with threshold 2 and batch size 2:
the run finishes with 950 in slot `'A'` and 1800 in slot `'N'`. -/
theorem C1_aggregate_correctness_witness :
    1 ≤ 2 ∧ (∀ r, r < 3 → (scenario_table.l_returnflag r).val < 255) ∧
    ∃ st, Q1 scenario_table 3 2 2
        (Q1_init (List.replicate 255 { valid := false, returnflag := 0, sum := 0 })
          (fun _ => 0) (fun _ => 0) (fun _ => 0) (fun _ => 0)) = .finished st ∧
      (∃ e, st.hash_table[65]? = some e ∧ e.sum = 950) ∧
      (∃ e, st.hash_table[78]? = some e ∧ e.sum = 1800) := by
  obtain ⟨st, hst, _, hsum⟩ := C1_aggregate_correctness scenario_table 3 2 255 2 (by decide)
    (fun r _ => scenario_keys r) (fun _ => 0) (fun _ => 0) (fun _ => 0) (fun _ => 0)
  refine ⟨by decide, fun r _ => scenario_keys r, st, hst, ?_, ?_⟩
  · obtain ⟨e, he, hs⟩ := hsum 65 (by decide)
    refine ⟨e, he, ?_⟩
    have hl : (List.range 3).filter (fun r => decide (scenario_table.l_shipdate r < 2)
        && decide ((scenario_table.l_returnflag r).val = 65)) = [0] := by decide
    rw [hs, hl]
    simp [scenario_table]
    norm_num
  · obtain ⟨e, he, hs⟩ := hsum 78 (by decide)
    refine ⟨e, he, ?_⟩
    have hl : (List.range 3).filter (fun r => decide (scenario_table.l_shipdate r < 2)
        && decide ((scenario_table.l_returnflag r).val = 78)) = [1] := by decide
    rw [hs, hl]
    simp [scenario_table]
    norm_num

/-- Witness of C2 on the concrete scenario: batch sizes 1 and 37 end with the
same hash table, and both runs finish. -/
theorem C2_batch_size_invariance_witness :
    1 ≤ 1 ∧ 1 ≤ 37 ∧
    (Q1 scenario_table 3 1 2
        (Q1_init (main_hash_table ℚ) (fun _ => 0) (fun _ => 0) (fun _ => 0) (fun _ => 0))).map
        (fun s => s.hash_table)
      = (Q1 scenario_table 3 37 2
        (Q1_init (main_hash_table ℚ) (fun _ => 1) (fun _ => 1) (fun _ => 1) (fun _ => 1))).map
        (fun s => s.hash_table) ∧
    ∃ st1 st2,
      Q1 scenario_table 3 1 2
        (Q1_init (main_hash_table ℚ) (fun _ => 0) (fun _ => 0) (fun _ => 0) (fun _ => 0))
        = .finished st1 ∧
      Q1 scenario_table 3 37 2
        (Q1_init (main_hash_table ℚ) (fun _ => 1) (fun _ => 1) (fun _ => 1) (fun _ => 1))
        = .finished st2 ∧
      st1.hash_table = st2.hash_table := by
  have h := C2_batch_size_invariance scenario_table 3 1 37 2 (by decide) (by decide)
    (main_hash_table ℚ) (fun _ => 0) (fun _ => 0) (fun _ => 1) (fun _ => 1)
    (fun _ => 0) (fun _ => 0) (fun _ => 1) (fun _ => 1)
  have hl : (main_hash_table ℚ).length = 255 := by
    rw [main_hash_table, List.length_replicate]; rfl
  exact ⟨by decide, by decide, h.1, h.2.2 (fun r _ _ => by rw [hl]; exact scenario_keys r)⟩

/-- Witness of C4: the input selection `[0, 2, 4]` of a batch of length 5
satisfies the invariant, and so does the selection the filter emits. -/
theorem C4_selection_monotonicity_witness :
    sel_inv 5 (selection 3 (some (fun j => 2 * j))) ∧
    List.Sublist
      (selection (FILTER_lt_date_col_date_val 3 (fun _ => 0) (fun i => i) 3
          (some (fun j => 2 * j))).1
        (some (FILTER_lt_date_col_date_val 3 (fun _ => 0) (fun i => i) 3
          (some (fun j => 2 * j))).2))
      (selection 3 (some (fun j => 2 * j))) ∧
    sel_inv 5
      (selection (FILTER_lt_date_col_date_val 3 (fun _ => 0) (fun i => i) 3
          (some (fun j => 2 * j))).1
        (some (FILTER_lt_date_col_date_val 3 (fun _ => 0) (fun i => i) 3
          (some (fun j => 2 * j))).2)) := by
  have hs : sel_inv 5 (selection 3 (some (fun j => 2 * j))) := by decide
  exact ⟨hs, (C4_selection_monotonicity 3 5 (fun _ => 0) (fun i => i) 3 (fun j => 2 * j) hs).1⟩

/-- Witness of C7: after the first cycle of the concrete scenario with batch
size 2 the loop is in a state whose four scans are aligned. -/
theorem C7_positional_alignment_witness :
    ∃ st, Q1_cycles scenario_table 3 2 2 1
        (Q1_init (main_hash_table ℚ) (fun _ => 0) (fun _ => 0) (fun _ => 0) (fun _ => 0))
        = some st ∧
      SCAN_returnflag 3 2 st.idx_returnflag st.returnflags
        = SCAN_shipdate 3 2 st.idx_shipdate st.shipdates ∧
      SCAN_discount 3 2 st.idx_discount st.discounts
        = SCAN_shipdate 3 2 st.idx_shipdate st.shipdates ∧
      SCAN_extendedprice 3 2 st.idx_extendedprice st.extendedprices
        = SCAN_shipdate 3 2 st.idx_shipdate st.shipdates := by
  have hl : (main_hash_table ℚ).length = 255 := by
    rw [main_hash_table, List.length_replicate]; rfl
  have cyc := Q1_cycle_spec scenario_table 3 2 2
    (Q1_init (main_hash_table ℚ) (fun _ => 0) (fun _ => 0) (fun _ => 0) (fun _ => 0)) 0
    (by simp [cursors_at, Q1_init])
  cases hq : Q1_cycle scenario_table 3 2 2
    (Q1_init (main_hash_table ℚ) (fun _ => 0) (fun _ => 0) (fun _ => 0) (fun _ => 0)) with
  | none =>
    rw [hq] at cyc
    obtain ⟨h, hrun, _⟩ := Q1_rows_spec scenario_table 2 (main_hash_table ℚ) 2
      (fun r _ _ => by rw [hl]; exact scenario_keys r)
    have e : List.range' 0 (min (2 : Int) (3 - ((0 : Nat) : Int))).toNat = List.range 2 := by
      decide
    simp only [e, Q1_init] at cyc
    rw [hrun] at cyc
    simp at cyc
  | some r =>
    rw [hq] at cyc
    have hn : r.1 = 2 := by
      simp only [Option.map_some'] at cyc
      split at cyc
      · rename_i hh; simp at hh
      · cases hrows : Q1_rows scenario_table 2
            (List.range' 0 (min (2 : Int) (3 - ((0 : Nat) : Int))).toNat)
            (Q1_init (main_hash_table ℚ) (fun _ => 0) (fun _ => 0) (fun _ => 0)
              (fun _ => 0)).hash_table with
        | none => rw [hrows] at cyc; simp at cyc
        | some h =>
          rw [hrows] at cyc
          simp only [Option.map_some', Option.some.injEq, Prod.mk.injEq] at cyc
          rw [cyc.1]; decide
    have hst : Q1_cycles scenario_table 3 2 2 1
        (Q1_init (main_hash_table ℚ) (fun _ => 0) (fun _ => 0) (fun _ => 0) (fun _ => 0))
        = some r.2 := by
      simp [Q1_cycles, hq, hn]
    exact ⟨r.2, hst, (C7_positional_alignment scenario_table 3 2 2 (main_hash_table ℚ)
      (fun _ => 0) (fun _ => 0) (fun _ => 0) (fun _ => 0) 1 r.2 hst).2.1⟩

theorem HASH_eq_fold {D : Type} (n : Int) (res : Mem Nat) (ht : List (hash_entry D))
    (col : Mem (Fin 256)) (sel : Option (Mem Nat)) :
    HASH_direct_char_col n res ht col sel
      = ((selection n sel).foldlM (fun h i => ht_mark h (col i).val (col i)) ht).map
          (fun h => (n, (selection n sel).foldl (fun r i => r.write i (col i).val) res, h)) := by
  cases sel with
  | none =>
    have : (fun (st : Mem Nat × List (hash_entry D)) i => HASH_body col st i) = HASH_body col :=
      rfl
    simp only [HASH_direct_char_col, selection, this, HASH_fold_split, Option.map_map]
    rfl
  | some s =>
    rw [HASH_some, HASH_fold_split, Option.map_map]
    rfl

theorem AGGR_eq_fold {D : Type} [Add D] (n : Int) (ht : List (hash_entry D)) (hash : Mem Nat)
    (col : Mem D) (sel : Option (Mem Nat)) :
    AGGR_sum_double_col n ht hash col sel
      = ((selection n sel).foldlM (fun h i => ht_add_sum h (hash i) (col i)) ht).map
          (fun h => (n, h)) := by
  cases sel with
  | none => simp [AGGR_sum_double_col, selection]
  | some s => exact AGGR_some n ht hash col s

/-- Marking the slots of the keys `key i`, `i ∈ L`, all of them slots of the
table: the fold succeeds, keeps the length and every sum, makes the slot of each
key met valid with that key, and leaves the other slots as they were. -/
theorem mark_fold_spec {D : Type} (col : Mem (Fin 256)) (L : List Nat) :
    ∀ ht : List (hash_entry D), (∀ i ∈ L, (col i).val < ht.length) →
      ∃ ht1, L.foldlM (fun h i => ht_mark h (col i).val (col i)) ht = some ht1 ∧
        ht1.length = ht.length ∧
        ∀ k e0, ht[k]? = some e0 → ∃ e, ht1[k]? = some e ∧ e.sum = e0.sum ∧
          ((∃ i ∈ L, (col i).val = k) → e.valid = true ∧ e.returnflag.val = k) ∧
          ((∀ i ∈ L, (col i).val ≠ k) → e = e0) := by
  induction L with
  | nil =>
    intro ht _
    exact ⟨ht, rfl, rfl, fun k e0 he => ⟨e0, he, rfl, by simp, fun _ => rfl⟩⟩
  | cons i L ih =>
    intro ht hk
    have hi : (col i).val < ht.length := hk i (List.mem_cons_self i L)
    simp only [List.foldlM_cons, ht_mark_eq, hi, dif_pos, Option.bind_eq_bind, Option.some_bind]
    obtain ⟨ht1, hrun, hlen, hs⟩ := ih
      (ht.set (col i).val { ht[(col i).val] with valid := true, returnflag := col i })
      (fun j hj => by rw [List.length_set]; exact hk j (List.mem_cons_of_mem _ hj))
    simp only [ht_mark_eq] at hrun
    refine ⟨ht1, hrun, by rw [hlen, List.length_set], ?_⟩
    intro k e0 he
    by_cases hki : (col i).val = k
    · have hget : ht[(col i).val] = e0 := by
        have : ht[(col i).val]? = some e0 := by rw [hki]; exact he
        rw [List.getElem?_eq_getElem hi] at this
        exact Option.some.inj this
      obtain ⟨e, h1, h2, h3, h4⟩ := hs k { e0 with valid := true, returnflag := col i }
        (by rw [← hki, List.getElem?_set_self hi, hget])
      refine ⟨e, h1, h2, ?_, ?_⟩
      · intro _
        by_cases hex : ∃ j ∈ L, (col j).val = k
        · exact h3 hex
        · have := h4 (fun j hj hjk => hex ⟨j, hj, hjk⟩)
          rw [this]
          exact ⟨rfl, hki⟩
      · intro hall
        exact absurd hki (hall i (List.mem_cons_self i L))
    · obtain ⟨e, h1, h2, h3, h4⟩ := hs k e0
        (by rw [List.getElem?_set_ne hki]; exact he)
      refine ⟨e, h1, h2, ?_, ?_⟩
      · rintro ⟨j, hj, hjk⟩
        rcases List.mem_cons.mp hj with rfl | hj'
        · exact absurd hjk hki
        · exact h3 ⟨j, hj', hjk⟩
      · intro hall
        exact h4 (fun j hj => hall j (List.mem_cons_of_mem _ hj))

/-- C11: when every selected key is a slot of the table, `HASH_direct_char_col`
returns `n`; afterwards `out_keys[i] = (int)col[i]` and slot `col[i]` is valid
with key `col[i]` for each selected position `i`, the positions of `out_keys`
that are not selected and the slots that are the key of no selected position
are unchanged, and no slot's sum is changed. -/
theorem C11_hash_build_contract {D : Type} (n : Int) (res : Mem Nat) (ht : List (hash_entry D))
    (col : Mem (Fin 256)) (sel : Option (Mem Nat))
    (hk : ∀ i ∈ selection n sel, (col i).val < ht.length) :
    ∃ res1 ht1, HASH_direct_char_col n res ht col sel = some (n, res1, ht1) ∧
      ht1.length = ht.length ∧
      (∀ i ∈ selection n sel, res1 i = (col i).val ∧
        ∃ e, ht1[(col i).val]? = some e ∧ e.valid = true ∧ e.returnflag = col i) ∧
      (∀ i, i ∉ selection n sel → res1 i = res i) ∧
      (∀ k : Nat, (∀ i ∈ selection n sel, (col i).val ≠ k) → ht1[k]? = ht[k]?) ∧
      (∀ k : Nat, (ht1[k]?).map (fun e : hash_entry D => e.sum)
        = (ht[k]?).map (fun e : hash_entry D => e.sum)) := by
  obtain ⟨ht1, hrun, hlen, hs⟩ := mark_fold_spec col (selection n sel) ht hk
  refine ⟨(selection n sel).foldl (fun r i => r.write i (col i).val) res, ht1, ?_, hlen,
    ?_, ?_, ?_, ?_⟩
  · rw [HASH_eq_fold, hrun]; rfl
  · intro i hi
    refine ⟨by rw [write_fold_get (fun i => (col i).val)]; simp [hi], ?_⟩
    have hlt := hk i hi
    obtain ⟨e, h1, _, h3, _⟩ := hs (col i).val ht[(col i).val]
      (List.getElem?_eq_getElem hlt)
    obtain ⟨hv, hr⟩ := h3 ⟨i, hi, rfl⟩
    exact ⟨e, h1, hv, Fin.ext hr⟩
  · intro i hi
    rw [write_fold_get (fun i => (col i).val)]; simp [hi]
  · intro k hall
    by_cases hlt : k < ht.length
    · obtain ⟨e, h1, _, _, h4⟩ := hs k ht[k] (List.getElem?_eq_getElem hlt)
      rw [h1, h4 hall, List.getElem?_eq_getElem hlt]
    · rw [List.getElem?_eq_none (by omega), List.getElem?_eq_none (by omega)]
  · intro k
    by_cases hlt : k < ht.length
    · obtain ⟨e, h1, h2, _, _⟩ := hs k ht[k] (List.getElem?_eq_getElem hlt)
      rw [h1, List.getElem?_eq_getElem hlt]
      simp [h2]
    · rw [List.getElem?_eq_none (by omega), List.getElem?_eq_none (by omega)]

/-- Witness of C11: a batch of three rows with keys `'A'`, `'N'`, `'A'` and the
selection `[0, 2]` on the table allocated by `main`. -/
theorem C11_hash_build_contract_witness :
    (∀ i ∈ selection 2 (some (fun j => 2 * j)),
      (scenario_table.l_returnflag i).val < (main_hash_table ℚ).length) ∧
    ∃ res1 ht1, HASH_direct_char_col 2 (fun _ => 0) (main_hash_table ℚ)
        scenario_table.l_returnflag (some (fun j => 2 * j)) = some (2, res1, ht1) ∧
      res1 0 = 65 ∧ res1 2 = 65 ∧ res1 1 = 0 ∧
      ht1[78]? = (main_hash_table ℚ)[78]? := by
  have hl : (main_hash_table ℚ).length = 255 := by
    rw [main_hash_table, List.length_replicate]; rfl
  have hk : ∀ i ∈ selection 2 (some (fun j => 2 * j)),
      (scenario_table.l_returnflag i).val < (main_hash_table ℚ).length :=
    fun i _ => by rw [hl]; exact scenario_keys i
  obtain ⟨res1, ht1, h1, _, h3, h4, h5, _⟩ := C11_hash_build_contract 2 (fun _ => 0)
    (main_hash_table ℚ) scenario_table.l_returnflag (some (fun j => 2 * j)) hk
  have hsel : selection 2 (some (fun j => 2 * j)) = [0, 2] := by decide
  refine ⟨hk, res1, ht1, h1, ?_, ?_, ?_, ?_⟩
  · have := (h3 0 (by rw [hsel]; simp)).1
    rw [this]; rfl
  · have := (h3 2 (by rw [hsel]; simp)).1
    rw [this]; rfl
  · exact h4 1 (by rw [hsel]; simp)
  · apply h5
    intro i hi
    rw [hsel] at hi
    simp at hi
    rcases hi with rfl | rfl <;> decide

/-- Adding `col i` to the slot `hash i` for `i ∈ L`, all of them slots of the
table: the fold succeeds, keeps the length, and slot `k` ends as it was but
for its sum, to which the values of the positions with `hash i = k` were added
in list order. -/
theorem add_fold_spec {D : Type} [Add D] (hash : Mem Nat) (col : Mem D) (L : List Nat) :
    ∀ ht : List (hash_entry D), (∀ i ∈ L, hash i < ht.length) →
      ∃ ht1, L.foldlM (fun h i => ht_add_sum h (hash i) (col i)) ht = some ht1 ∧
        ht1.length = ht.length ∧
        ∀ (k : Nat) (e0 : hash_entry D), ht[k]? = some e0 → ht1[k]? = some
          { e0 with
            sum := List.foldl (fun acc i => acc + col i) e0.sum
                    (L.filter (fun i => decide (hash i = k))) } := by
  induction L with
  | nil =>
    intro ht _
    exact ⟨ht, rfl, rfl, fun k e0 he => by simpa using he⟩
  | cons i L ih =>
    intro ht hk
    have hi : hash i < ht.length := hk i (List.mem_cons_self i L)
    simp only [List.foldlM_cons, ht_add_sum_eq, hi, dif_pos, Option.bind_eq_bind,
      Option.some_bind]
    obtain ⟨ht1, hrun, hlen, hs⟩ := ih
      (ht.set (hash i) { ht[hash i] with sum := ht[hash i].sum + col i })
      (fun j hj => by rw [List.length_set]; exact hk j (List.mem_cons_of_mem _ hj))
    simp only [ht_add_sum_eq] at hrun
    refine ⟨ht1, hrun, by rw [hlen, List.length_set], ?_⟩
    intro k e0 he
    by_cases hki : hash i = k
    · have hget : ht[hash i] = e0 := by
        have : ht[hash i]? = some e0 := by rw [hki]; exact he
        rw [List.getElem?_eq_getElem hi] at this
        exact Option.some.inj this
      have := hs k { e0 with sum := e0.sum + col i }
        (by rw [← hki, List.getElem?_set_self hi, hget])
      rw [this]
      simp [List.filter_cons, hki]
    · have := hs k e0 (by rw [List.getElem?_set_ne hki]; exact he)
      rw [this]
      simp [List.filter_cons, hki]

/-- C12: when every key referenced through the selection is a slot of the
table, `AGGR_sum_double_col` returns `n`; afterwards the sum of every slot `k`
is its previous sum plus the values `col[i]` of the selected positions with
`hash[i] = k`, added in selection order, and the valid flag and key of every
slot are unchanged. -/
theorem C12_aggregate_contract {D : Type} [Add D] (n : Int) (ht : List (hash_entry D))
    (hash : Mem Nat) (col : Mem D) (sel : Option (Mem Nat))
    (hk : ∀ i ∈ selection n sel, hash i < ht.length) :
    ∃ ht1, AGGR_sum_double_col n ht hash col sel = some (n, ht1) ∧
      ht1.length = ht.length ∧
      ∀ (k : Nat) (e0 : hash_entry D), ht[k]? = some e0 → ∃ e, ht1[k]? = some e ∧
        e.sum = ((selection n sel).filter (fun i => decide (hash i = k))).foldl
          (fun acc i => acc + col i) e0.sum ∧
        e.valid = e0.valid ∧ e.returnflag = e0.returnflag := by
  obtain ⟨ht1, hrun, hlen, hs⟩ := add_fold_spec hash col (selection n sel) ht hk
  refine ⟨ht1, by rw [AGGR_eq_fold, hrun]; rfl, hlen, ?_⟩
  intro k e0 he
  exact ⟨_, hs k e0 he, rfl, rfl, rfl⟩

/-- Witness of C12: two selected positions hit slot 65 and one hits slot 78;
slot 65 receives both values, in selection order. -/
theorem C12_aggregate_contract_witness :
    (∀ i ∈ selection 3 none,
      (fun i => (scenario_table.l_returnflag i).val) i < (main_hash_table ℚ).length) ∧
    ∃ ht1, AGGR_sum_double_col 3 (main_hash_table ℚ)
        (fun i => (scenario_table.l_returnflag i).val) scenario_table.l_extendedprice none
        = some (3, ht1) ∧
      (∃ e, ht1[65]? = some e ∧ e.sum = 1500 ∧ e.valid = false) ∧
      (∃ e, ht1[78]? = some e ∧ e.sum = 2000 ∧ e.valid = false) := by
  have hl : (main_hash_table ℚ).length = 255 := by
    rw [main_hash_table, List.length_replicate]; rfl
  have hk : ∀ i ∈ selection 3 none,
      (fun i => (scenario_table.l_returnflag i).val) i < (main_hash_table ℚ).length :=
    fun i _ => by rw [hl]; exact scenario_keys i
  obtain ⟨ht1, h1, _, h3⟩ := C12_aggregate_contract 3 (main_hash_table ℚ)
    (fun i => (scenario_table.l_returnflag i).val) scenario_table.l_extendedprice none hk
  have hget : ∀ k, k < 255 → (main_hash_table ℚ)[k]?
      = some { valid := false, returnflag := 0, sum := 0 } := by
    intro k hk
    have hk' : k < UCHAR_MAX := hk
    rw [main_hash_table, List.getElem?_replicate, if_pos hk']
  refine ⟨hk, ht1, h1, ?_, ?_⟩
  · obtain ⟨e, he, hsum, hv, _⟩ := h3 65 _ (hget 65 (by decide))
    refine ⟨e, he, ?_, hv⟩
    have hf : (selection 3 none).filter
        (fun i => decide ((scenario_table.l_returnflag i).val = 65)) = [0, 2] := by decide
    rw [hsum, hf]
    simp [scenario_table]
    norm_num
  · obtain ⟨e, he, hsum, hv, _⟩ := h3 78 _ (hget 78 (by decide))
    refine ⟨e, he, ?_, hv⟩
    have hf : (selection 3 none).filter
        (fun i => decide ((scenario_table.l_returnflag i).val = 78)) = [1] := by decide
    rw [hsum, hf]
    simp [scenario_table]

theorem PROJECT_sub_eq_fold {D : Type} [Sub D] (n : Int) (res col : Mem D) (v : D)
    (sel : Option (Mem Nat)) :
    PROJECT_sub_double_val_double_col n res col v sel
      = (n, (selection n sel).foldl (fun r i => r.write i (v - col i)) res) := by
  cases sel with
  | none => simp [PROJECT_sub_double_val_double_col, selection]
  | some s => simp [PROJECT_sub_double_val_double_col, selection, List.foldl_map]

theorem PROJECT_mul_eq_fold {D : Type} [Mul D] (n : Int) (res col1 col2 : Mem D)
    (sel : Option (Mem Nat)) :
    PROJECT_mul_double_col_double_col n res col1 col2 sel
      = (n, (selection n sel).foldl (fun r i => r.write i (col1 i * col2 i)) res) := by
  cases sel with
  | none => simp [PROJECT_mul_double_col_double_col, selection]
  | some s => simp [PROJECT_mul_double_col_double_col, selection, List.foldl_map]

/-- C13: both projections return `n` and write their result at exactly the
selected positions (`0..n-1` without selection vector), each at the index of its
inputs: `res[i] = val - col[i]`, respectively `res[i] = col1[i] * col2[i]`;
every other position of `res` is unchanged. -/
theorem C13_project_in_place {D : Type} [Sub D] [Mul D] (n : Int) (res col col1 col2 : Mem D)
    (val : D) (sel : Option (Mem Nat)) :
    (PROJECT_sub_double_val_double_col n res col val sel).1 = n ∧
    (∀ i, (PROJECT_sub_double_val_double_col n res col val sel).2 i
      = if i ∈ selection n sel then val - col i else res i) ∧
    (PROJECT_mul_double_col_double_col n res col1 col2 sel).1 = n ∧
    (∀ i, (PROJECT_mul_double_col_double_col n res col1 col2 sel).2 i
      = if i ∈ selection n sel then col1 i * col2 i else res i) ∧
    (selection n sel = match sel with
      | some s => (List.range n.toNat).map s
      | none => List.range n.toNat) := by
  refine ⟨by rw [PROJECT_sub_eq_fold], ?_, by rw [PROJECT_mul_eq_fold], ?_, ?_⟩
  · intro i
    rw [PROJECT_sub_eq_fold]
    exact write_fold_get (fun i => val - col i) _ res i
  · intro i
    rw [PROJECT_mul_eq_fold]
    exact write_fold_get (fun i => col1 i * col2 i) _ res i
  · cases sel <;> rfl

theorem group_rows_ne_nil {D : Type} (T : Lineitem D) (val : Int) (C g : Nat) :
    group_rows T val C g ≠ [] ↔
      ∃ r, r < C ∧ T.l_shipdate r < val ∧ (T.l_returnflag r).val = g := by
  rw [Ne, group_rows, List.filter_eq_nil_iff]
  simp only [qualifies, List.mem_range, Bool.and_eq_true, decide_eq_true_eq, not_forall,
    Classical.not_imp, not_not]
  constructor
  · rintro ⟨r, hr, h⟩; exact ⟨r, hr, h⟩
  · rintro ⟨r, hr, h⟩; exact ⟨r, hr, h⟩

/-- C14: after a full run of `Q1` from an all-invalid hash table, with any batch
size `N ≥ 1` and every key met addressable, slot `g` is valid if and only if
some row `r` has `shipdate[r] < val` and `returnflag[r] = g`; for the empty
table the first scan returns 0 and the table ends as it started, with no valid
entry. -/
theorem C14_groups_reported {D : Type} [Add D] [Sub D] [Mul D] [Zero D] [One D]
    (T : Lineitem D) (C N : Nat) (val : Int) (hN : 1 ≤ N) (ht0 : List (hash_entry D))
    (hinv : ∀ e ∈ ht0, e.valid = false)
    (hkeys : ∀ r, r < C → T.l_shipdate r < val → (T.l_returnflag r).val < ht0.length)
    (v0 v1 : Mem D) (v2 s : Mem Nat) :
    ∃ st, Q1 T C N val (Q1_init ht0 v0 v1 v2 s) = .finished st ∧
      st.hash_table.length = ht0.length ∧
      (∀ g, g < ht0.length → ∃ e, st.hash_table[g]? = some e ∧
        (e.valid = true ↔
          ∃ r, r < C ∧ T.l_shipdate r < val ∧ (T.l_returnflag r).val = g)) ∧
      (C = 0 → (SCAN_shipdate (C : Int) N 0 none).ret = 0 ∧ st.hash_table = ht0 ∧
        ∀ e ∈ st.hash_table, e.valid = false) := by
  obtain ⟨ht, hrun, hlen, hslots⟩ := Q1_rows_spec T val ht0 C hkeys
  have h := Q1_init_spec T C N hN val ht0 v0 v1 v2 s
  rw [hrun] at h
  obtain ⟨st, hst, hht⟩ := Run.map_eq_finished _ _ _ h
  refine ⟨st, hst, by rw [hht, hlen], ?_, ?_⟩
  · intro g hg
    obtain ⟨e, he, _, hvalid, _⟩ := hslots g ht0[g] (List.getElem?_eq_getElem hg)
    refine ⟨e, by rw [hht]; exact he, ?_⟩
    rw [hvalid, hinv ht0[g] (List.getElem_mem hg), ← group_rows_ne_nil]
    cases hgr : group_rows T val C g <;> simp
  · intro hC
    subst hC
    have e0 : ht = ht0 := by
      simp only [Q1_rows, List.range_zero, List.foldlM_nil] at hrun
      exact (Option.some.inj hrun).symm
    refine ⟨by simp [SCAN_shipdate], by rw [hht, e0], ?_⟩
    rw [hht, e0]
    exact hinv

theorem main_hash_table_length (D : Type) [Zero D] : (main_hash_table D).length = 255 := by
  rw [main_hash_table, List.length_replicate]; rfl

theorem main_hash_table_invalid (D : Type) [Zero D] :
    ∀ e ∈ main_hash_table D, e.valid = false := by
  intro e he
  rw [main_hash_table] at he
  rw [List.eq_of_mem_replicate he]

/-- Witness of C14 on the concrete scenario with threshold 2 and batch size 2:
slot `'A'` (65) is valid after the run, slot 66 is not. -/
theorem C14_groups_reported_witness :
    1 ≤ 2 ∧ (∀ e ∈ main_hash_table ℚ, e.valid = false) ∧
    ∃ st, Q1 scenario_table 3 2 2
        (Q1_init (main_hash_table ℚ) (fun _ => 0) (fun _ => 0) (fun _ => 0) (fun _ => 0))
        = .finished st ∧
      (∃ e, st.hash_table[65]? = some e ∧ e.valid = true) ∧
      (∃ e, st.hash_table[66]? = some e ∧ e.valid = false) := by
  obtain ⟨st, hst, _, hv, _⟩ := C14_groups_reported scenario_table 3 2 2 (by decide)
    (main_hash_table ℚ) (main_hash_table_invalid ℚ)
    (fun r _ _ => by rw [main_hash_table_length]; exact scenario_keys r)
    (fun _ => 0) (fun _ => 0) (fun _ => 0) (fun _ => 0)
  refine ⟨by decide, main_hash_table_invalid ℚ, st, hst, ?_, ?_⟩
  · obtain ⟨e, he, hiff⟩ := hv 65 (by rw [main_hash_table_length]; decide)
    exact ⟨e, he, hiff.mpr ⟨0, by decide, by decide, by decide⟩⟩
  · obtain ⟨e, he, hiff⟩ := hv 66 (by rw [main_hash_table_length]; decide)
    refine ⟨e, he, ?_⟩
    cases hval : e.valid with
    | false => rfl
    | true =>
      obtain ⟨r, _, _, hr⟩ := hiff.mp hval
      exfalso
      simp only [scenario_table] at hr
      split at hr
      · exact absurd hr (by decide)
      · exact absurd hr (by decide)

/-! ### The slot invariant of the hash table -/

theorem slots_kept_refl {D : Type} (ht : List (hash_entry D)) : slots_kept ht ht :=
  fun _ e he hv => ⟨e, he, hv, rfl⟩

theorem slots_kept_trans {D : Type} {a b c : List (hash_entry D)}
    (h1 : slots_kept a b) (h2 : slots_kept b c) : slots_kept a c := by
  intro k e he hv
  obtain ⟨e1, he1, hv1, hr1⟩ := h1 k e he hv
  obtain ⟨e2, he2, hv2, hr2⟩ := h2 k e1 he1 hv1
  exact ⟨e2, he2, hv2, hr2.trans hr1⟩

theorem ht_mark_inv {D : Type} (ht ht1 : List (hash_entry D)) (c : Fin 256)
    (h : ht_mark ht c.val c = some ht1) (hc : canonical ht) :
    canonical ht1 ∧ slots_kept ht ht1 := by
  rw [ht_mark_eq] at h
  by_cases hlt : c.val < ht.length
  · simp only [hlt, dif_pos, Option.some.injEq] at h
    subst h
    constructor
    · intro k e he hv
      by_cases hk : c.val = k
      · rw [← hk, List.getElem?_set_self hlt] at he
        rw [← Option.some.inj he]
        exact hk
      · rw [List.getElem?_set_ne hk] at he
        exact hc k e he hv
    · intro k e he hv
      by_cases hk : c.val = k
      · refine ⟨_, by rw [← hk, List.getElem?_set_self hlt], rfl, ?_⟩
        exact Fin.ext (hk.trans (hc k e he hv).symm)
      · exact ⟨e, by rw [List.getElem?_set_ne hk]; exact he, hv, rfl⟩
  · simp [hlt] at h

theorem ht_add_sum_inv {D : Type} [Add D] (ht ht1 : List (hash_entry D)) (k0 : Nat) (v : D)
    (h : ht_add_sum ht k0 v = some ht1) (hc : canonical ht) :
    canonical ht1 ∧ slots_kept ht ht1 := by
  rw [ht_add_sum_eq] at h
  by_cases hlt : k0 < ht.length
  · simp only [hlt, dif_pos, Option.some.injEq] at h
    subst h
    constructor
    · intro k e he hv
      by_cases hk : k0 = k
      · subst hk
        rw [List.getElem?_set_self hlt] at he
        rw [← Option.some.inj he] at hv ⊢
        exact hc k0 ht[k0] (List.getElem?_eq_getElem hlt) hv
      · rw [List.getElem?_set_ne hk] at he
        exact hc k e he hv
    · intro k e he hv
      by_cases hk : k0 = k
      · subst hk
        have : ht[k0] = e := by
          rw [List.getElem?_eq_getElem hlt] at he
          exact Option.some.inj he
        refine ⟨_, by rw [List.getElem?_set_self hlt], ?_, ?_⟩
        · rw [this]; exact hv
        · rw [this]
      · exact ⟨e, by rw [List.getElem?_set_ne hk]; exact he, hv, rfl⟩
  · simp [hlt] at h

theorem foldlM_inv {D β : Type} (f : List (hash_entry D) → β → Option (List (hash_entry D)))
    (hf : ∀ h b h1, f h b = some h1 → canonical h → canonical h1 ∧ slots_kept h h1)
    (L : List β) :
    ∀ ht ht1, L.foldlM f ht = some ht1 → canonical ht →
      canonical ht1 ∧ slots_kept ht ht1 := by
  induction L with
  | nil =>
    intro ht ht1 h hc
    simp only [List.foldlM_nil, Option.pure_def, Option.some.injEq] at h
    subst h
    exact ⟨hc, slots_kept_refl ht⟩
  | cons b L ih =>
    intro ht ht1 h hc
    simp only [List.foldlM_cons, Option.bind_eq_bind] at h
    cases hb : f ht b with
    | none => rw [hb] at h; simp at h
    | some h2 =>
      rw [hb] at h
      obtain ⟨c2, k2⟩ := hf ht b h2 hb hc
      obtain ⟨c3, k3⟩ := ih h2 ht1 h c2
      exact ⟨c3, slots_kept_trans k2 k3⟩

theorem HASH_inv {D : Type} (n : Int) (res : Mem Nat) (ht : List (hash_entry D))
    (col : Mem (Fin 256)) (sel : Option (Mem Nat)) (r : Int × Mem Nat × List (hash_entry D))
    (h : HASH_direct_char_col n res ht col sel = some r) (hc : canonical ht) :
    canonical r.2.2 ∧ slots_kept ht r.2.2 := by
  rw [HASH_eq_fold] at h
  cases hf : (selection n sel).foldlM (fun h i => ht_mark h (col i).val (col i)) ht with
  | none => rw [hf] at h; simp at h
  | some ht1 =>
    rw [hf] at h
    simp only [Option.map_some', Option.some.injEq] at h
    subst h
    exact foldlM_inv (fun h i => ht_mark h (col i).val (col i))
      (fun h i h1 hh => ht_mark_inv h h1 (col i) hh) _ ht ht1 hf hc

theorem AGGR_inv {D : Type} [Add D] (n : Int) (ht : List (hash_entry D)) (hash : Mem Nat)
    (col : Mem D) (sel : Option (Mem Nat)) (r : Int × List (hash_entry D))
    (h : AGGR_sum_double_col n ht hash col sel = some r) (hc : canonical ht) :
    canonical r.2 ∧ slots_kept ht r.2 := by
  rw [AGGR_eq_fold] at h
  cases hf : (selection n sel).foldlM (fun h i => ht_add_sum h (hash i) (col i)) ht with
  | none => rw [hf] at h; simp at h
  | some ht1 =>
    rw [hf] at h
    simp only [Option.map_some', Option.some.injEq] at h
    subst h
    exact foldlM_inv (fun h i => ht_add_sum h (hash i) (col i))
      (fun h i h1 hh => ht_add_sum_inv h h1 (hash i) (col i) hh) _ ht ht1 hf hc

theorem Q1_operators_inv {D : Type} [Add D] [Sub D] [Mul D] [One D] (n : Int)
    (sh : Mem Int) (rf : Mem (Fin 256)) (di pr : Mem D) (val : Int) (b b1 : Q1Buffers D)
    (h : Q1_operators n sh rf di pr val b = some b1) (hc : canonical b.hash_table) :
    canonical b1.hash_table ∧ slots_kept b.hash_table b1.hash_table := by
  unfold Q1_operators at h
  simp only at h
  split at h
  · simp at h
  · rename_i hh hH
    split at h
    · simp at h
    · rename_i a hA
      simp only [Option.some.injEq] at h
      subst h
      obtain ⟨c1, k1⟩ := HASH_inv _ _ _ _ _ hh hH hc
      obtain ⟨c2, k2⟩ := AGGR_inv _ _ _ _ _ a hA c1
      exact ⟨c2, slots_kept_trans k1 k2⟩

theorem Q1_cycle_inv {D : Type} [Add D] [Sub D] [Mul D] [Zero D] [One D]
    (T : Lineitem D) (LINEITEM N val : Int) (st : Q1State D) (r : Int × Q1State D)
    (h : Q1_cycle T LINEITEM N val st = some r) (hc : canonical st.hash_table) :
    canonical r.2.hash_table ∧ slots_kept st.hash_table r.2.hash_table := by
  unfold Q1_cycle at h
  simp only at h
  split at h
  · simp at h
  · rename_i b hb
    simp only [Option.some.injEq] at h
    subst h
    exact Q1_operators_inv _ _ _ _ _ _ _ b hb hc

theorem Q1_cycles_inv {D : Type} [Add D] [Sub D] [Mul D] [Zero D] [One D]
    (T : Lineitem D) (LINEITEM N val : Int) :
    ∀ (k : Nat) (st0 st : Q1State D), Q1_cycles T LINEITEM N val k st0 = some st →
      canonical st0.hash_table →
      canonical st.hash_table ∧ slots_kept st0.hash_table st.hash_table := by
  intro k
  induction k with
  | zero =>
    intro st0 st h hc
    simp only [Q1_cycles, Option.some.injEq] at h
    subst h
    exact ⟨hc, slots_kept_refl _⟩
  | succ k ih =>
    intro st0 st h hc
    simp only [Q1_cycles] at h
    split at h
    · simp at h
    · rename_i r hr
      split at h
      · obtain ⟨c1, k1⟩ := Q1_cycle_inv T LINEITEM N val st0 r hr hc
        obtain ⟨c2, k2⟩ := ih r.2 st h c1
        exact ⟨c2, slots_kept_trans k1 k2⟩
      · simp at h

theorem Q1_loop_inv {D : Type} [Add D] [Sub D] [Mul D] [Zero D] [One D]
    (T : Lineitem D) (LINEITEM N val : Int) :
    ∀ (fuel : Nat) (st0 st : Q1State D), Q1_loop T LINEITEM N val fuel st0 = .finished st →
      canonical st0.hash_table →
      canonical st.hash_table ∧ slots_kept st0.hash_table st.hash_table := by
  intro fuel
  induction fuel with
  | zero => intro st0 st h; simp [Q1_loop] at h
  | succ fuel ih =>
    intro st0 st h hc
    simp only [Q1_loop] at h
    split at h
    · simp at h
    · rename_i r hr
      obtain ⟨c1, k1⟩ := Q1_cycle_inv T LINEITEM N val st0 r hr hc
      split at h
      · obtain ⟨c2, k2⟩ := ih r.2 st h c1
        exact ⟨c2, slots_kept_trans k1 k2⟩
      · simp only [Run.finished.injEq] at h
        subst h
        exact ⟨c1, k1⟩

theorem canonical_of_invalid {D : Type} (ht : List (hash_entry D))
    (h : ∀ e ∈ ht, e.valid = false) : canonical ht := by
  intro k e he hv
  have := h e (List.getElem?_mem he)
  rw [this] at hv
  exact absurd hv (by decide)

/-- C15: a call of `HASH_direct_char_col` or of `AGGR_sum_double_col`, hence a
cycle of `Q1`, on a table whose valid slots store their canonical key leaves
such a table, in which every slot that was valid is still valid with the same
key.  Starting from an all-invalid table this holds in every state the loop
reaches and in the final state of the run. -/
theorem C15_slot_invariant {D : Type} [Add D] [Sub D] [Mul D] [Zero D] [One D]
    (T : Lineitem D) (LINEITEM N val : Int) :
    (∀ (n : Int) (res : Mem Nat) (ht : List (hash_entry D)) (col : Mem (Fin 256))
        (sel : Option (Mem Nat)) (r : Int × Mem Nat × List (hash_entry D)),
      canonical ht → HASH_direct_char_col n res ht col sel = some r →
      canonical r.2.2 ∧ slots_kept ht r.2.2) ∧
    (∀ (n : Int) (ht : List (hash_entry D)) (hash : Mem Nat) (col : Mem D)
        (sel : Option (Mem Nat)) (r : Int × List (hash_entry D)),
      canonical ht → AGGR_sum_double_col n ht hash col sel = some r →
      canonical r.2 ∧ slots_kept ht r.2) ∧
    (∀ (st : Q1State D) (r : Int × Q1State D),
      canonical st.hash_table → Q1_cycle T LINEITEM N val st = some r →
      canonical r.2.hash_table ∧ slots_kept st.hash_table r.2.hash_table) ∧
    (∀ (ht0 : List (hash_entry D)) (v0 v1 : Mem D) (v2 s : Mem Nat),
      (∀ e ∈ ht0, e.valid = false) →
      (∀ (j d : Nat) (st st1 : Q1State D),
        Q1_cycles T LINEITEM N val j (Q1_init ht0 v0 v1 v2 s) = some st →
        Q1_cycles T LINEITEM N val d st = some st1 →
        canonical st.hash_table ∧ canonical st1.hash_table ∧
          slots_kept st.hash_table st1.hash_table) ∧
      (∀ st, Q1 T LINEITEM N val (Q1_init ht0 v0 v1 v2 s) = .finished st →
        canonical st.hash_table)) := by
  refine ⟨?_, ?_, ?_, ?_⟩
  · intro n res ht col sel r hc h
    exact HASH_inv n res ht col sel r h hc
  · intro n ht hash col sel r hc h
    exact AGGR_inv n ht hash col sel r h hc
  · intro st r hc h
    exact Q1_cycle_inv T LINEITEM N val st r h hc
  · intro ht0 v0 v1 v2 s hinv
    have hc0 : canonical (Q1_init ht0 v0 v1 v2 s).hash_table := canonical_of_invalid ht0 hinv
    constructor
    · intro j d st st1 hj hd
      obtain ⟨c1, _⟩ := Q1_cycles_inv T LINEITEM N val j _ st hj hc0
      obtain ⟨c2, k2⟩ := Q1_cycles_inv T LINEITEM N val d st st1 hd c1
      exact ⟨c1, c2, k2⟩
    · intro st h
      unfold Q1 at h
      exact (Q1_loop_inv T LINEITEM N val _ _ st h hc0).1

/-- Witness of C15 on the concrete scenario: the run from the all-invalid table
of `main` finishes with a table whose valid slots store their canonical key. -/
theorem C15_slot_invariant_witness :
    ∃ st, Q1 scenario_table 3 2 2
        (Q1_init (main_hash_table ℚ) (fun _ => 0) (fun _ => 0) (fun _ => 0) (fun _ => 0))
        = .finished st ∧ canonical st.hash_table := by
  obtain ⟨ht, hrun, _⟩ := Q1_rows_spec scenario_table 2 (main_hash_table ℚ) 3
    (fun r _ _ => by rw [main_hash_table_length]; exact scenario_keys r)
  have h := Q1_init_spec scenario_table 3 2 (by decide) 2 (main_hash_table ℚ)
    (fun _ => 0) (fun _ => 0) (fun _ => 0) (fun _ => 0)
  rw [hrun] at h
  obtain ⟨st, hst, _⟩ := Run.map_eq_finished _ _ _ h
  exact ⟨st, hst, (C15_slot_invariant scenario_table 3 2 2).2.2.2 (main_hash_table ℚ)
    (fun _ => 0) (fun _ => 0) (fun _ => 0) (fun _ => 0) (main_hash_table_invalid ℚ) |>.2 st hst⟩

/-! ### Monotonicity of the sums

The order on `D` is only assumed to behave on the values `ok` singles out: for
`double` these are the values other than NaN and `-∞`, on which `≤` is
reflexive and adding a value `≥ 0` neither decreases a sum nor leaves the set
(`-∞ + ∞` is NaN, and NaN is not `≤` itself). -/

theorem sums_le_refl {D : Type} [LE D] (ok : D → Prop) (hrefl : ∀ a : D, ok a → a ≤ a)
    (ht : List (hash_entry D)) (h : sums_ok ok ht) : sums_le ht ht :=
  fun k e he => ⟨e, he, hrefl _ (h k e he)⟩

theorem sums_le_trans {D : Type} [LE D] (htrans : ∀ a b c : D, a ≤ b → b ≤ c → a ≤ c)
    {a b c : List (hash_entry D)} (h1 : sums_le a b) (h2 : sums_le b c) : sums_le a c := by
  intro k e he
  obtain ⟨e1, he1, hl1⟩ := h1 k e he
  obtain ⟨e2, he2, hl2⟩ := h2 k e1 he1
  exact ⟨e2, he2, htrans _ _ _ hl1 hl2⟩

theorem ht_mark_sums_le {D : Type} [LE D] (ok : D → Prop) (hrefl : ∀ a : D, ok a → a ≤ a)
    (ht ht1 : List (hash_entry D)) (k0 : Nat) (c : Fin 256) (hok : sums_ok ok ht)
    (h : ht_mark ht k0 c = some ht1) : sums_le ht ht1 ∧ sums_ok ok ht1 := by
  rw [ht_mark_eq] at h
  by_cases hlt : k0 < ht.length
  · simp only [hlt, dif_pos, Option.some.injEq] at h
    subst h
    constructor
    · intro k e he
      by_cases hk : k0 = k
      · subst hk
        have : ht[k0] = e := by
          rw [List.getElem?_eq_getElem hlt] at he
          exact Option.some.inj he
        exact ⟨_, by rw [List.getElem?_set_self hlt], by rw [this]; exact hrefl _ (hok _ _ he)⟩
      · exact ⟨e, by rw [List.getElem?_set_ne hk]; exact he, hrefl _ (hok _ _ he)⟩
    · intro k e he
      by_cases hk : k0 = k
      · subst hk
        rw [List.getElem?_set_self hlt] at he
        rw [← Option.some.inj he]
        exact hok k0 ht[k0] (List.getElem?_eq_getElem hlt)
      · rw [List.getElem?_set_ne hk] at he
        exact hok k e he
  · simp [hlt] at h

theorem ht_add_sum_sums_le {D : Type} [Add D] [Zero D] [LE D] (ok : D → Prop)
    (hrefl : ∀ a : D, ok a → a ≤ a)
    (hadd : ∀ a b : D, ok a → 0 ≤ b → a ≤ a + b ∧ ok (a + b))
    (ht ht1 : List (hash_entry D)) (k0 : Nat) (v : D) (hv : 0 ≤ v) (hok : sums_ok ok ht)
    (h : ht_add_sum ht k0 v = some ht1) : sums_le ht ht1 ∧ sums_ok ok ht1 := by
  rw [ht_add_sum_eq] at h
  by_cases hlt : k0 < ht.length
  · simp only [hlt, dif_pos, Option.some.injEq] at h
    subst h
    have h0 : ok ht[k0].sum := hok k0 ht[k0] (List.getElem?_eq_getElem hlt)
    constructor
    · intro k e he
      by_cases hk : k0 = k
      · subst hk
        have : ht[k0] = e := by
          rw [List.getElem?_eq_getElem hlt] at he
          exact Option.some.inj he
        exact ⟨_, by rw [List.getElem?_set_self hlt], by rw [← this]; exact (hadd _ _ h0 hv).1⟩
      · exact ⟨e, by rw [List.getElem?_set_ne hk]; exact he, hrefl _ (hok _ _ he)⟩
    · intro k e he
      by_cases hk : k0 = k
      · subst hk
        rw [List.getElem?_set_self hlt] at he
        rw [← Option.some.inj he]
        exact (hadd _ _ h0 hv).2
      · rw [List.getElem?_set_ne hk] at he
        exact hok k e he
  · simp [hlt] at h

theorem foldlM_sums_le {D β : Type} [LE D] (ok : D → Prop) (hrefl : ∀ a : D, ok a → a ≤ a)
    (htrans : ∀ a b c : D, a ≤ b → b ≤ c → a ≤ c)
    (f : List (hash_entry D) → β → Option (List (hash_entry D))) (L : List β)
    (hf : ∀ h, ∀ b ∈ L, ∀ h1, sums_ok ok h → f h b = some h1 →
      sums_le h h1 ∧ sums_ok ok h1) :
    ∀ ht ht1, sums_ok ok ht → L.foldlM f ht = some ht1 →
      sums_le ht ht1 ∧ sums_ok ok ht1 := by
  induction L with
  | nil =>
    intro ht ht1 hok h
    simp only [List.foldlM_nil, Option.pure_def, Option.some.injEq] at h
    subst h
    exact ⟨sums_le_refl ok hrefl ht hok, hok⟩
  | cons b L ih =>
    intro ht ht1 hok h
    simp only [List.foldlM_cons, Option.bind_eq_bind] at h
    cases hb : f ht b with
    | none => rw [hb] at h; simp at h
    | some h2 =>
      rw [hb] at h
      obtain ⟨l1, o1⟩ := hf ht b (List.mem_cons_self b L) h2 hok hb
      obtain ⟨l2, o2⟩ := ih (fun h b hb => hf h b (List.mem_cons_of_mem _ hb)) h2 ht1 o1 h
      exact ⟨sums_le_trans htrans l1 l2, o2⟩

theorem AGGR_sums_le {D : Type} [Add D] [Zero D] [LE D] (ok : D → Prop)
    (hrefl : ∀ a : D, ok a → a ≤ a) (htrans : ∀ a b c : D, a ≤ b → b ≤ c → a ≤ c)
    (hadd : ∀ a b : D, ok a → 0 ≤ b → a ≤ a + b ∧ ok (a + b))
    (n : Int) (ht : List (hash_entry D))
    (hash : Mem Nat) (col : Mem D) (sel : Option (Mem Nat)) (r : Int × List (hash_entry D))
    (hok : sums_ok ok ht) (hcol : ∀ i ∈ selection n sel, 0 ≤ col i)
    (h : AGGR_sum_double_col n ht hash col sel = some r) :
    sums_le ht r.2 ∧ sums_ok ok r.2 := by
  rw [AGGR_eq_fold] at h
  cases hf : (selection n sel).foldlM (fun h i => ht_add_sum h (hash i) (col i)) ht with
  | none => rw [hf] at h; simp at h
  | some ht1 =>
    rw [hf] at h
    simp only [Option.map_some', Option.some.injEq] at h
    subst h
    exact foldlM_sums_le ok hrefl htrans (fun h i => ht_add_sum h (hash i) (col i)) _
      (fun h i hi h1 ho hh =>
        ht_add_sum_sums_le ok hrefl hadd h h1 (hash i) (col i) (hcol i hi) ho hh)
      ht ht1 hok hf

theorem Q1_rows_sums_le {D : Type} [Add D] [Sub D] [Mul D] [Zero D] [One D] [LE D]
    (ok : D → Prop) (hrefl : ∀ a : D, ok a → a ≤ a)
    (htrans : ∀ a b c : D, a ≤ b → b ≤ c → a ≤ c)
    (hadd : ∀ a b : D, ok a → 0 ≤ b → a ≤ a + b ∧ ok (a + b))
    (T : Lineitem D) (val : Int) (rows : List Nat)
    (hrev : ∀ r ∈ rows, T.l_shipdate r < val →
      0 ≤ (1 - T.l_discount r) * T.l_extendedprice r)
    (ht ht1 : List (hash_entry D)) (hok : sums_ok ok ht)
    (h : Q1_rows T val rows ht = some ht1) : sums_le ht ht1 ∧ sums_ok ok ht1 := by
  refine foldlM_sums_le ok hrefl htrans _ rows ?_ ht ht1 hok h
  intro h0 r hr h1 ho hstep
  simp only [row_step] at hstep
  by_cases hq : T.l_shipdate r < val
  · simp only [hq, if_true] at hstep
    cases hm : ht_mark h0 (T.l_returnflag r).val (T.l_returnflag r) with
    | none => rw [hm] at hstep; simp at hstep
    | some h2 =>
      rw [hm] at hstep
      obtain ⟨l1, o1⟩ := ht_mark_sums_le ok hrefl h0 h2 _ _ ho hm
      obtain ⟨l2, o2⟩ := ht_add_sum_sums_le ok hrefl hadd h2 h1 _ _ (hrev r hr hq) o1 hstep
      exact ⟨sums_le_trans htrans l1 l2, o2⟩
  · simp only [hq, if_false, Option.some.injEq] at hstep
    subst hstep
    exact ⟨sums_le_refl ok hrefl h0 ho, ho⟩

/-! ### States reached by the loop -/

/-- What a successful cycle started with all cursors at row `k` returns. -/
theorem Q1_cycle_some {D : Type} [Add D] [Sub D] [Mul D] [Zero D] [One D]
    (T : Lineitem D) (LINEITEM N val : Int) (st : Q1State D) (k : Nat)
    (hc : cursors_at st k) (r : Int × Q1State D)
    (h : Q1_cycle T LINEITEM N val st = some r) :
    (LINEITEM - k ≤ 0 ∧ r.1 = 0 ∧ cursors_at r.2 k ∧ r.2.hash_table = st.hash_table) ∨
    (0 < LINEITEM - k ∧ r.1 = min N (LINEITEM - k) ∧ cursors_at r.2 (k + N) ∧
      Q1_rows T val (List.range' k (min N (LINEITEM - k)).toNat) st.hash_table
        = some r.2.hash_table) := by
  have cyc := Q1_cycle_spec T LINEITEM N val st k hc
  rw [h] at cyc
  by_cases hr : LINEITEM - (k : Int) ≤ 0
  · left
    simp only [hr, if_true, Option.map_some', Option.some.injEq, Prod.mk.injEq] at cyc
    obtain ⟨c1, c2, c3, c4, c5, c6⟩ := cyc
    exact ⟨hr, c1, ⟨c2, c3, c4, c5⟩, c6⟩
  · right
    simp only [hr, if_false] at cyc
    cases hrows : Q1_rows T val (List.range' k (min N (LINEITEM - k)).toNat) st.hash_table with
    | none => rw [hrows] at cyc; simp at cyc
    | some ht1 =>
      rw [hrows] at cyc
      simp only [Option.map_some', Option.some.injEq, Prod.mk.injEq] at cyc
      obtain ⟨c1, c2, c3, c4, c5, c6⟩ := cyc
      exact ⟨by omega, c1, ⟨c2, c3, c4, c5⟩, by rw [c6]⟩

/-- The state at the start of cycle `j` has all cursors at row `k0 + j * N`, and
its hash table is the result of the reference run over the rows before. -/
theorem Q1_cycles_cursors {D : Type} [Add D] [Sub D] [Mul D] [Zero D] [One D]
    (T : Lineitem D) (LINEITEM : Int) (N : Nat) (val : Int) :
    ∀ (j : Nat) (st0 st : Q1State D) (k0 : Nat), cursors_at st0 k0 →
      Q1_cycles T LINEITEM N val j st0 = some st →
      cursors_at st ((k0 + j * N : Nat) : Int) ∧
      ((k0 + j * N : Nat) : Int) ≤ max (k0 : Int) LINEITEM + N ∧
      (j ≠ 0 → ((k0 + (j - 1) * N : Nat) : Int) < LINEITEM) ∧
      Q1_rows T val (List.range' k0 (min (j * N) (LINEITEM - k0).toNat)) st0.hash_table
        = some st.hash_table := by
  intro j
  induction j with
  | zero =>
    intro st0 st k0 hc h
    simp only [Q1_cycles, Option.some.injEq] at h
    subst h
    refine ⟨by simpa using hc, by simp; omega, by simp, by simp [Q1_rows]⟩
  | succ j ih =>
    intro st0 st k0 hc h
    simp only [Q1_cycles] at h
    split at h
    · simp at h
    · rename_i r hr
      split at h
      · rename_i hpos
        rcases Q1_cycle_some T LINEITEM N val st0 k0 hc r hr with ⟨_, h0, _⟩ | ⟨hrow, hn, hc1, hq⟩
        · omega
        · have hc1' : cursors_at r.2 ((k0 + N : Nat) : Int) := by
            simpa using hc1
          obtain ⟨i1, i2, i3, i4⟩ := ih r.2 st (k0 + N) hc1' h
          have hNpos : 0 < N := by
            rcases Nat.eq_zero_or_pos N with h0 | h0
            · subst h0; simp at hn; omega
            · exact h0
          refine ⟨?_, ?_, ?_, ?_⟩
          · have e : k0 + N + j * N = k0 + (j + 1) * N := by ring
            rw [e] at i1; exact i1
          · have e : k0 + N + j * N = k0 + (j + 1) * N := by ring
            rw [e] at i2
            rcases Nat.eq_zero_or_pos j with hj | hj
            · subst hj; simp
            · have := i3 (by omega)
              have e2 : k0 + N + (j - 1) * N = k0 + j * N := by
                have : j = (j - 1) + 1 := by omega
                nth_rewrite 2 [this]
                ring
              rw [e2] at this
              have e3 : k0 + (j + 1) * N = k0 + j * N + N := by ring
              rw [e3]
              push_cast at this ⊢
              omega
          · intro _
            rcases Nat.eq_zero_or_pos j with hj | hj
            · subst hj; simp; omega
            · have := i3 (by omega)
              have e2 : k0 + N + (j - 1) * N = k0 + j * N := by
                have : j = (j - 1) + 1 := by omega
                nth_rewrite 2 [this]
                ring
              rw [e2] at this
              simpa using this
          · have hsplit : List.range' k0 (min ((j + 1) * N) (LINEITEM - (k0 : Int)).toNat)
                = List.range' k0 (min (N : Int) (LINEITEM - k0)).toNat
                  ++ List.range' (k0 + N)
                      (min (j * N) (LINEITEM - ((k0 + N : Nat) : Int)).toNat) := by
              have e3 : (j + 1) * N = j * N + N := by ring
              by_cases hle : (N : Int) ≤ LINEITEM - k0
              · have e1 : (min (N : Int) (LINEITEM - k0)).toNat = N := by omega
                rw [e1, List.range'_append_1]
                congr 1
                rw [e3]
                push_cast
                omega
              · have e1 : (min (N : Int) (LINEITEM - k0)).toNat
                    = (LINEITEM - (k0 : Int)).toNat := by omega
                have e2 : (LINEITEM - ((k0 + N : Nat) : Int)).toNat = 0 := by
                  push_cast; omega
                rw [e1, e2, e3]
                have : min (j * N + N) (LINEITEM - (k0 : Int)).toNat
                    = (LINEITEM - (k0 : Int)).toNat := by omega
                rw [this]
                simp
            rw [hsplit, Q1_rows_append, hq]
            exact i4
      · simp at h

/-- A finished run of the loop went through some number `j` of cycles that
returned `n > 0` and then one cycle that returned `n ≤ 0`. -/
theorem Q1_loop_cycles {D : Type} [Add D] [Sub D] [Mul D] [Zero D] [One D]
    (T : Lineitem D) (LINEITEM N val : Int) :
    ∀ (fuel : Nat) (st0 st : Q1State D), Q1_loop T LINEITEM N val fuel st0 = .finished st →
      ∃ j stj r, Q1_cycles T LINEITEM N val j st0 = some stj ∧
        Q1_cycle T LINEITEM N val stj = some r ∧ ¬ 0 < r.1 ∧ r.2 = st := by
  intro fuel
  induction fuel with
  | zero => intro st0 st h; simp [Q1_loop] at h
  | succ fuel ih =>
    intro st0 st h
    simp only [Q1_loop] at h
    split at h
    · simp at h
    · rename_i r hr
      split at h
      · rename_i hpos
        obtain ⟨j, stj, r1, h1, h2, h3, h4⟩ := ih r.2 st h
        exact ⟨j + 1, stj, r1, by simp [Q1_cycles, hr, hpos, h1], h2, h3, h4⟩
      · rename_i hpos
        simp only [Run.finished.injEq] at h
        exact ⟨0, st0, r, rfl, hr, hpos, h⟩

theorem Q1_init_eq_loop {D : Type} [Add D] [Sub D] [Mul D] [Zero D] [One D]
    (T : Lineitem D) (LINEITEM N val : Int) (ht : List (hash_entry D)) (v0 v1 : Mem D)
    (v2 s : Mem Nat) :
    Q1 T LINEITEM N val (Q1_init ht v0 v1 v2 s)
      = Q1_loop T LINEITEM N val (LINEITEM.toNat + 1) (Q1_init ht v0 v1 v2 s) := by
  simp [Q1, Q1_init]

/-! ### Termination of the driver -/

/-- What the operator blocks leave in the intermediates: the selection vector
of the filter, and at every selected position the values just computed. -/
theorem Q1_operators_buffers {D : Type} [Add D] [Sub D] [Mul D] [One D] (n : Int)
    (sh : Mem Int) (rf : Mem (Fin 256)) (di pr : Mem D) (val : Int) (b b1 : Q1Buffers D)
    (h : Q1_operators n sh rf di pr val b = some b1) :
    b1.sel = (FILTER_lt_date_col_date_val n b.sel sh val none).2 ∧
    ∀ i ∈ selection (FILTER_lt_date_col_date_val n b.sel sh val none).1
        (some (FILTER_lt_date_col_date_val n b.sel sh val none).2),
      b1.vec0 i = 1 - di i ∧ b1.vec1 i = (1 - di i) * pr i ∧ b1.vec2 i = (rf i).val := by
  unfold Q1_operators at h
  simp only at h
  split at h
  · simp at h
  · rename_i hh hH
    split at h
    · simp at h
    · rename_i a hA
      simp only [Option.some.injEq] at h
      subst h
      refine ⟨rfl, ?_⟩
      intro i hi
      simp only
      have h0 : (PROJECT_sub_double_val_double_col
          (FILTER_lt_date_col_date_val n b.sel sh val none).1 b.vec0 di 1
          (some (FILTER_lt_date_col_date_val n b.sel sh val none).2)).2 i = 1 - di i := by
        rw [PROJECT_sub_some, write_fold_get (fun i => 1 - di i)]
        simp [hi]
      refine ⟨h0, ?_, ?_⟩
      · rw [PROJECT_mul_some, write_fold_get (fun i => (PROJECT_sub_double_val_double_col
          (FILTER_lt_date_col_date_val n b.sel sh val none).1 b.vec0 di 1
          (some (FILTER_lt_date_col_date_val n b.sel sh val none).2)).2 i * pr i)]
        simp [hi, h0]
      · rw [HASH_eq_fold] at hH
        cases hf : (selection (FILTER_lt_date_col_date_val n b.sel sh val none).1
            (some (FILTER_lt_date_col_date_val n b.sel sh val none).2)).foldlM
            (fun h i => ht_mark h (rf i).val (rf i)) b.hash_table with
        | none => rw [hf] at hH; simp at hH
        | some ht1 =>
          rw [hf] at hH
          simp only [Option.map_some', Option.some.injEq] at hH
          rw [← hH]
          simp only
          rw [write_fold_get (fun i => (rf i).val)]
          simp [hi]

theorem Q1_cycle_buffers {D : Type} [Add D] [Sub D] [Mul D] [Zero D] [One D]
    (T : Lineitem D) (LINEITEM N val : Int) (st : Q1State D) (r : Int × Q1State D)
    (h : Q1_cycle T LINEITEM N val st = some r) :
    r.2.sel = (Q1_cycle_sel T LINEITEM N val st).2 ∧
    ∀ i ∈ selection (Q1_cycle_sel T LINEITEM N val st).1
        (some (Q1_cycle_sel T LINEITEM N val st).2),
      r.2.vec0 i = 1 - deref 0 T.l_discount (Q1_scan LINEITEM N st).2.2.1.view i ∧
      r.2.vec1 i = (1 - deref 0 T.l_discount (Q1_scan LINEITEM N st).2.2.1.view i)
        * deref 0 T.l_extendedprice (Q1_scan LINEITEM N st).2.2.2.view i ∧
      r.2.vec2 i = (deref 0 T.l_returnflag (Q1_scan LINEITEM N st).2.1.view i).val := by
  unfold Q1_cycle at h
  simp only at h
  split at h
  · simp at h
  · rename_i b hb
    simp only [Option.some.injEq] at h
    subst h
    exact Q1_operators_buffers _ _ _ _ _ _ _ b hb

theorem scan_shape (LINEITEM n idx : Int) (res : Option Int) :
    SCAN_shipdate LINEITEM n idx res
        = ⟨if LINEITEM - idx ≤ 0 then 0 else min n (LINEITEM - idx),
            if LINEITEM - idx ≤ 0 then idx else idx + n,
            if LINEITEM - idx ≤ 0 then res else some idx⟩ ∧
    SCAN_returnflag LINEITEM n idx res
        = ⟨if LINEITEM - idx ≤ 0 then 0 else min n (LINEITEM - idx),
            if LINEITEM - idx ≤ 0 then idx else idx + n,
            if LINEITEM - idx ≤ 0 then res else some idx⟩ ∧
    SCAN_discount LINEITEM n idx res
        = ⟨if LINEITEM - idx ≤ 0 then 0 else min n (LINEITEM - idx),
            if LINEITEM - idx ≤ 0 then idx else idx + n,
            if LINEITEM - idx ≤ 0 then res else some idx⟩ ∧
    SCAN_extendedprice LINEITEM n idx res
        = ⟨if LINEITEM - idx ≤ 0 then 0 else min n (LINEITEM - idx),
            if LINEITEM - idx ≤ 0 then idx else idx + n,
            if LINEITEM - idx ≤ 0 then res else some idx⟩ := by
  by_cases h : LINEITEM - idx ≤ 0 <;>
    simp [SCAN_shipdate, SCAN_returnflag, SCAN_discount, SCAN_extendedprice, h]

theorem Checked.map_map {α β γ : Type} (f : α → β) (g : β → γ) (x : Checked α) :
    (x.map f).map g = x.map (fun a => g (f a)) := by
  cases x <;> rfl

/-- The four scan results of a cycle started with all cursors at row `k`. -/
theorem Q1_scan_at {D : Type} (C : Nat) (N : Int) (st : Q1State D) (k : Nat)
    (hc : cursors_at st k) :
    (Q1_scan C N st).1
        = ⟨if (C : Int) - k ≤ 0 then 0 else min N ((C : Int) - k),
            if (C : Int) - k ≤ 0 then (k : Int) else k + N,
            if (C : Int) - k ≤ 0 then st.shipdates else some (k : Int)⟩ ∧
    (Q1_scan C N st).2.1
        = ⟨if (C : Int) - k ≤ 0 then 0 else min N ((C : Int) - k),
            if (C : Int) - k ≤ 0 then (k : Int) else k + N,
            if (C : Int) - k ≤ 0 then st.returnflags else some (k : Int)⟩ ∧
    (Q1_scan C N st).2.2.1
        = ⟨if (C : Int) - k ≤ 0 then 0 else min N ((C : Int) - k),
            if (C : Int) - k ≤ 0 then (k : Int) else k + N,
            if (C : Int) - k ≤ 0 then st.discounts else some (k : Int)⟩ ∧
    (Q1_scan C N st).2.2.2
        = ⟨if (C : Int) - k ≤ 0 then 0 else min N ((C : Int) - k),
            if (C : Int) - k ≤ 0 then (k : Int) else k + N,
            if (C : Int) - k ≤ 0 then st.extendedprices else some (k : Int)⟩ := by
  obtain ⟨c1, c2, c3, c4⟩ := hc
  simp only [Q1_scan]
  rw [(scan_shape C N st.idx_shipdate st.shipdates).1,
    (scan_shape C N st.idx_returnflag st.returnflags).2.1,
    (scan_shape C N st.idx_discount st.discounts).2.2.1,
    (scan_shape C N st.idx_extendedprice st.extendedprices).2.2.2, c1, c2, c3, c4]
  exact ⟨rfl, rfl, rfl, rfl⟩

/-- The AGGREGATE block of a successful cycle: `HASH_direct_char_col` succeeds
on the table the cycle started with, and the table the cycle leaves is the one
`AGGR_sum_double_col` returns when called on the table `HASH_direct_char_col`
left, with the `vec2`, `vec1` and `sel` of the cycle. -/
theorem Q1_cycle_aggr_call {D : Type} [Add D] [Sub D] [Mul D] [Zero D] [One D]
    (T : Lineitem D) (LINEITEM N val : Int) (st : Q1State D) (r : Int × Q1State D)
    (h : Q1_cycle T LINEITEM N val st = some r) :
    ∃ hh : Int × Mem Nat × List (hash_entry D),
      HASH_direct_char_col (Q1_cycle_sel T LINEITEM N val st).1 st.vec2 st.hash_table
          (deref 0 T.l_returnflag (Q1_scan LINEITEM N st).2.1.view)
          (some (Q1_cycle_sel T LINEITEM N val st).2) = some hh ∧
      AGGR_sum_double_col (Q1_cycle_sel T LINEITEM N val st).1 hh.2.2 r.2.vec2 r.2.vec1
          (some r.2.sel) = some ((Q1_cycle_sel T LINEITEM N val st).1, r.2.hash_table) := by
  unfold Q1_cycle at h
  simp only at h
  split at h
  · simp at h
  · rename_i b hb
    simp only [Option.some.injEq] at h
    subst h
    unfold Q1_operators at hb
    simp only at hb
    split at hb
    · simp at hb
    · rename_i hh hH
      split at hb
      · simp at hb
      · rename_i a hA
        simp only [Option.some.injEq] at hb
        subst hb
        refine ⟨hh, hH, ?_⟩
        simp only
        have ha : a = ((Q1_cycle_sel T LINEITEM N val st).1, a.2) := by
          rw [AGGR_eq_fold] at hA
          rw [Option.map_eq_some'] at hA
          obtain ⟨x, _, hx⟩ := hA
          rw [← hx]
          rfl
        rw [← ha]
        exact hA

theorem Q1_cycle_sums_le {D : Type} [Add D] [Sub D] [Mul D] [Zero D] [One D] [LE D]
    (ok : D → Prop) (hrefl : ∀ a : D, ok a → a ≤ a)
    (htrans : ∀ a b c : D, a ≤ b → b ≤ c → a ≤ c)
    (hadd : ∀ a b : D, ok a → 0 ≤ b → a ≤ a + b ∧ ok (a + b))
    (T : Lineitem D) (C : Nat) (N val : Int)
    (hrev : ∀ r, r < C → T.l_shipdate r < val →
      0 ≤ (1 - T.l_discount r) * T.l_extendedprice r)
    (st : Q1State D) (k : Nat) (hc : cursors_at st k) (hok : sums_ok ok st.hash_table)
    (r : Int × Q1State D) (h : Q1_cycle T C N val st = some r) :
    sums_le st.hash_table r.2.hash_table ∧ sums_ok ok r.2.hash_table := by
  rcases Q1_cycle_some T C N val st k hc r h with ⟨_, _, _, h4⟩ | ⟨hrow, _, _, hq⟩
  · rw [h4]; exact ⟨sums_le_refl ok hrefl _ hok, hok⟩
  · refine Q1_rows_sums_le ok hrefl htrans hadd T val _ ?_ _ _ hok hq
    intro x hx hs
    have := List.mem_range'_1.mp hx
    exact hrev x (by omega) hs

/-- C16 (amended): assume every value added is non-negative, that is
`(1 - discount[r]) * extendedprice[r] ≥ 0` for every row passing the filter,
and the sums start in a set `ok` of values on which the order behaves: `a ≤ a`
and, for `b ≥ 0`, `a ≤ a + b` with `a + b` again in `ok` (for `double`: the
values other than NaN and `-∞`, which include the `0` that `main` starts
with).  Then no slot's sum decreases during a run of `Q1`: not over any cycle
the loop reaches, not over the whole run, not over any call of
`AGGR_sum_double_col` whose selected values are non-negative, and not over the
call of `AGGR_sum_double_col` that a reached cycle makes, on the table
`HASH_direct_char_col` left and with the `vec2`, `vec1` and `sel` of the cycle;
and the sums stay in `ok`. -/
theorem C16_sums_never_decrease_nonneg {D : Type} [Add D] [Sub D] [Mul D] [Zero D] [One D]
    [LE D] (ok : D → Prop) (hrefl : ∀ a : D, ok a → a ≤ a)
    (htrans : ∀ a b c : D, a ≤ b → b ≤ c → a ≤ c)
    (hadd : ∀ a b : D, ok a → 0 ≤ b → a ≤ a + b ∧ ok (a + b))
    (T : Lineitem D) (C N : Nat) (val : Int)
    (hrev : ∀ r, r < C → T.l_shipdate r < val →
      0 ≤ (1 - T.l_discount r) * T.l_extendedprice r)
    (ht0 : List (hash_entry D)) (hok0 : sums_ok ok ht0) (v0 v1 : Mem D) (v2 s : Mem Nat) :
    (∀ (j : Nat) (st : Q1State D) (r : Int × Q1State D),
      Q1_cycles T C N val j (Q1_init ht0 v0 v1 v2 s) = some st →
      Q1_cycle T C N val st = some r →
      sums_le st.hash_table r.2.hash_table ∧ sums_le ht0 st.hash_table ∧
      sums_ok ok r.2.hash_table) ∧
    (∀ st, Q1 T C N val (Q1_init ht0 v0 v1 v2 s) = .finished st →
      sums_le ht0 st.hash_table ∧ sums_ok ok st.hash_table) ∧
    (∀ (n : Int) (ht : List (hash_entry D)) (hash : Mem Nat) (col : Mem D)
        (sel : Option (Mem Nat)) (r : Int × List (hash_entry D)),
      sums_ok ok ht → (∀ i ∈ selection n sel, 0 ≤ col i) →
      AGGR_sum_double_col n ht hash col sel = some r →
      sums_le ht r.2 ∧ sums_ok ok r.2) ∧
    (∀ (j : Nat) (st : Q1State D) (r : Int × Q1State D),
      Q1_cycles T C N val j (Q1_init ht0 v0 v1 v2 s) = some st →
      Q1_cycle T C N val st = some r →
      ∃ hh : Int × Mem Nat × List (hash_entry D),
        HASH_direct_char_col (Q1_cycle_sel T C N val st).1 st.vec2 st.hash_table
            (deref 0 T.l_returnflag (Q1_scan C N st).2.1.view)
            (some (Q1_cycle_sel T C N val st).2) = some hh ∧
        AGGR_sum_double_col (Q1_cycle_sel T C N val st).1 hh.2.2 r.2.vec2 r.2.vec1
            (some r.2.sel) = some ((Q1_cycle_sel T C N val st).1, r.2.hash_table) ∧
        (∀ i ∈ selection (Q1_cycle_sel T C N val st).1 (some r.2.sel), 0 ≤ r.2.vec1 i) ∧
        sums_le hh.2.2 r.2.hash_table ∧ sums_le st.hash_table hh.2.2) := by
  have hc0 : cursors_at (Q1_init ht0 v0 v1 v2 s) ((0 : Nat) : Int) := by
    simp [cursors_at, Q1_init]
  have hpre : ∀ (j : Nat) (st : Q1State D),
      Q1_cycles T C N val j (Q1_init ht0 v0 v1 v2 s) = some st →
      sums_le ht0 st.hash_table ∧ sums_ok ok st.hash_table := by
    intro j st hj
    obtain ⟨_, _, _, hq⟩ := Q1_cycles_cursors T C N val j _ st 0 hc0 hj
    refine Q1_rows_sums_le ok hrefl htrans hadd T val _ ?_ _ _ hok0 hq
    intro x hx hs
    have := List.mem_range'_1.mp hx
    exact hrev x (by omega) hs
  have hcyc : ∀ (j : Nat) (st : Q1State D) (r : Int × Q1State D),
      Q1_cycles T C N val j (Q1_init ht0 v0 v1 v2 s) = some st →
      Q1_cycle T C N val st = some r →
      sums_le st.hash_table r.2.hash_table ∧ sums_ok ok r.2.hash_table := by
    intro j st r hj hr
    obtain ⟨hc, _⟩ := Q1_cycles_cursors T C N val j _ st 0 hc0 hj
    exact Q1_cycle_sums_le ok hrefl htrans hadd T C N val hrev st _ hc (hpre j st hj).2 r hr
  refine ⟨?_, ?_, ?_, ?_⟩
  · intro j st r hj hr
    exact ⟨(hcyc j st r hj hr).1, (hpre j st hj).1, (hcyc j st r hj hr).2⟩
  · intro st h
    rw [Q1_init_eq_loop] at h
    obtain ⟨j, stj, r, h1, h2, _, h4⟩ := Q1_loop_cycles T C N val _ _ st h
    rw [← h4]
    exact ⟨sums_le_trans htrans (hpre j stj h1).1 (hcyc j stj r h1 h2).1,
      (hcyc j stj r h1 h2).2⟩
  · intro n ht hash col sel r hok hcol h
    exact AGGR_sums_le ok hrefl htrans hadd n ht hash col sel r hok hcol h
  · intro j st r hj hr
    obtain ⟨hcur, _⟩ := Q1_cycles_cursors T C N val j _ st 0 hc0 hj
    simp only [Nat.zero_add] at hcur
    obtain ⟨hh, hH, hA⟩ := Q1_cycle_aggr_call T C N val st r hr
    have hmark : sums_le st.hash_table hh.2.2 ∧ sums_ok ok hh.2.2 := by
      have hH1 := hH
      rw [HASH_eq_fold, Option.map_eq_some'] at hH1
      obtain ⟨x, hx, e⟩ := hH1
      rw [← e]
      exact foldlM_sums_le ok hrefl htrans _ _
        (fun h i _ h1 ho hm => ht_mark_sums_le ok hrefl h h1 _ _ ho hm) _ _ (hpre j st hj).2 hx
    obtain ⟨hsel1, hvals⟩ := Q1_cycle_buffers T C N val st r hr
    obtain ⟨s1, _, s3, s4⟩ := Q1_scan_at C N st (j * N) hcur
    have hsel : selection (Q1_cycle_sel T C N val st).1 (some (Q1_cycle_sel T C N val st).2)
        = (List.range (Q1_cycle_n C N st).toNat).filter
            (fun i => decide (deref 0 T.l_shipdate (Q1_scan C N st).1.view i < val)) := by
      rw [Q1_cycle_sel, FILTER_selection]; rfl
    have hcol : ∀ i ∈ selection (Q1_cycle_sel T C N val st).1 (some r.2.sel),
        0 ≤ r.2.vec1 i := by
      rw [hsel1]
      intro i hi
      rw [(hvals i hi).2.1]
      rw [hsel, List.mem_filter, List.mem_range] at hi
      obtain ⟨hin, hship⟩ := hi
      rw [Q1_cycle_n, s1] at hin
      have hrows : ¬ ((C : Int) - ((j * N : Nat) : Int) ≤ 0) := by
        intro h0
        rw [if_pos h0] at hin
        simp at hin
      rw [if_neg hrows] at hin
      have hin2 : i < (min (N : Int) ((C : Int) - ((j * N : Nat) : Int))).toNat := hin
      rw [s1] at hship
      rw [s3, s4]
      simp only [if_neg hrows, deref_some_nat] at hship ⊢
      exact hrev (j * N + i) (by omega) (by simpa using hship)
    exact ⟨hh, hH, hA, hcol,
      (AGGR_sums_le ok hrefl htrans hadd _ hh.2.2 r.2.vec2 r.2.vec1 (some r.2.sel) _
        hmark.2 hcol hA).1, hmark.1⟩

/-- C16 (counterexample): on the two-row table whose rows are
`(0, 'A', 2.0, 100)`, with the threshold `1 = (int)(2 * 0.98)` and batch size 1,
the run from the table of `main` finishes with the sum `-200` in slot `'A'`,
below the sum `0` it started with; already the first cycle, whose
`AGGR_sum_double_col` call adds `-100`, decreases it.  The call
`AGGR_sum_double_col` that adds the value `-100` to a sum `0` decreases it. -/
theorem C16_sum_decreases_counterexample :
    (∃ st : Q1State ℚ, Q1 negative_table 2 1 1
        (Q1_init (main_hash_table ℚ) (fun _ => 0) (fun _ => 0) (fun _ => 0) (fun _ => 0))
        = .finished st ∧
      (∃ e : hash_entry ℚ, st.hash_table[65]? = some e ∧ e.sum = (-200 : ℚ)) ∧
      ¬ sums_le (main_hash_table ℚ) st.hash_table) ∧
    (∃ r : Int × Q1State ℚ, Q1_cycle negative_table 2 1 1
        (Q1_init (main_hash_table ℚ) (fun _ => 0) (fun _ => 0) (fun _ => 0) (fun _ => 0))
        = some r ∧
      (∃ e : hash_entry ℚ, r.2.hash_table[65]? = some e ∧ e.sum = (-100 : ℚ)) ∧
      ¬ sums_le (main_hash_table ℚ) r.2.hash_table) ∧
    AGGR_sum_double_col 1 [({ valid := true, returnflag := 65, sum := 0 } : hash_entry ℚ)]
        (fun _ => 0) (fun _ => -100) none
      = some (1, [{ valid := true, returnflag := 65, sum := -100 }]) ∧
    ¬ sums_le [({ valid := true, returnflag := 65, sum := 0 } : hash_entry ℚ)]
        [{ valid := true, returnflag := 65, sum := -100 }] := by
  have h65 : (main_hash_table ℚ)[65]? = some { valid := false, returnflag := 0, sum := 0 } := by
    have hk' : 65 < UCHAR_MAX := by decide
    rw [main_hash_table, List.getElem?_replicate, if_pos hk']
  have hkeys : ∀ (C : Nat) (r : Nat), r < C → negative_table.l_shipdate r < 1 →
      (negative_table.l_returnflag r).val < (main_hash_table ℚ).length := by
    intro C r _ _
    rw [main_hash_table_length]
    show ((65 : Fin 256) : Nat) < 255
    decide
  refine ⟨?_, ?_, ?_, ?_⟩
  · obtain ⟨ht, hrun, _, hslots⟩ := Q1_rows_spec negative_table 1 (main_hash_table ℚ) 2
      (hkeys 2)
    have h := Q1_init_spec negative_table 2 1 (by decide) 1 (main_hash_table ℚ)
      (fun _ => 0) (fun _ => 0) (fun _ => 0) (fun _ => 0)
    rw [hrun] at h
    obtain ⟨st, hst, hht⟩ := Run.map_eq_finished _ _ _ h
    obtain ⟨e, he, hsum, _⟩ := hslots 65 _ h65
    have hval : e.sum = (-200 : ℚ) := by
      have hl : group_rows negative_table 1 2 65 = [0, 1] := by decide
      rw [hsum, group_sum, hl]
      simp [revenue, negative_table]
      norm_num
    refine ⟨st, hst, ⟨e, by rw [hht]; exact he, hval⟩, ?_⟩
    intro hle
    obtain ⟨e1, he1, h01⟩ := hle 65 _ h65
    rw [hht, he] at he1
    rw [← Option.some.inj he1, hval] at h01
    norm_num at h01
  · have hc0 : cursors_at (Q1_init (main_hash_table ℚ) (fun _ => (0 : ℚ)) (fun _ => 0)
        (fun _ => 0) (fun _ => 0)) ((0 : Nat) : Int) := by
      simp [cursors_at, Q1_init]
    obtain ⟨ht, hrun, _, hslots⟩ := Q1_rows_spec negative_table 1 (main_hash_table ℚ) 1
      (hkeys 1)
    have h := Q1_cycle_spec negative_table 2 1 1 _ 0 hc0
    have hl : List.range' 0 (min (1 : Int) (2 - ((0 : Nat) : Int))).toNat = List.range 1 := by
      decide
    have hne : ¬ ((2 : Int) - ((0 : Nat) : Int) ≤ 0) := by decide
    rw [if_neg hne, hl] at h
    have hht0 : (Q1_init (main_hash_table ℚ) (fun _ => (0 : ℚ)) (fun _ => 0)
        (fun _ => 0) (fun _ => 0)).hash_table = main_hash_table ℚ := rfl
    rw [hht0, hrun] at h
    cases hcy : Q1_cycle negative_table 2 1 1 (Q1_init (main_hash_table ℚ) (fun _ => (0 : ℚ))
        (fun _ => 0) (fun _ => 0) (fun _ => 0)) with
    | none => rw [hcy] at h; simp at h
    | some r =>
      rw [hcy] at h
      simp only [Option.map_some', Option.some.injEq, Prod.mk.injEq] at h
      have hht : r.2.hash_table = ht := h.2.2.2.2.2
      obtain ⟨e, he, hsum, _⟩ := hslots 65 _ h65
      have hval : e.sum = (-100 : ℚ) := by
        have hl : group_rows negative_table 1 1 65 = [0] := by decide
        rw [hsum, group_sum, hl]
        simp [revenue, negative_table]
        norm_num
      refine ⟨r, rfl, ⟨e, by rw [hht]; exact he, hval⟩, ?_⟩
      intro hle
      obtain ⟨e1, he1, h01⟩ := hle 65 _ h65
      rw [hht, he] at he1
      rw [← Option.some.inj he1, hval] at h01
      norm_num at h01
  · simp [AGGR_sum_double_col, ht_add_sum, List.range_succ]
  · intro hle
    obtain ⟨e1, he1, h01⟩ := hle 0 _ rfl
    simp only [List.getElem?_cons_zero, Option.some.injEq] at he1
    rw [← he1] at h01
    norm_num at h01

/-- Witness of C16 (amended) on the concrete scenario, whose values are
non-negative, over the rationals, where every value is `ok`: the run finishes
with no sum below the initial sum of its slot. -/
theorem C16_sums_never_decrease_nonneg_witness :
    (∀ a b : ℚ, True → 0 ≤ b → a ≤ a + b ∧ True) ∧
    (∀ r, r < 3 → scenario_table.l_shipdate r < 2 →
      0 ≤ (1 - scenario_table.l_discount r) * scenario_table.l_extendedprice r) ∧
    sums_ok (fun _ : ℚ => True) (main_hash_table ℚ) ∧
    ∃ st, Q1 scenario_table 3 2 2
        (Q1_init (main_hash_table ℚ) (fun _ => 0) (fun _ => 0) (fun _ => 0) (fun _ => 0))
        = .finished st ∧ sums_le (main_hash_table ℚ) st.hash_table := by
  have hadd : ∀ a b : ℚ, True → 0 ≤ b → a ≤ a + b ∧ True :=
    fun a b _ hb => ⟨le_add_of_nonneg_right hb, trivial⟩
  have hrev : ∀ r, r < 3 → scenario_table.l_shipdate r < 2 →
      0 ≤ (1 - scenario_table.l_discount r) * scenario_table.l_extendedprice r := by
    intro r _ _
    simp only [scenario_table]
    split_ifs <;> norm_num
  have hok : sums_ok (fun _ : ℚ => True) (main_hash_table ℚ) := fun _ _ _ => trivial
  obtain ⟨ht, hrun, _⟩ := Q1_rows_spec scenario_table 2 (main_hash_table ℚ) 3
    (fun r _ _ => by rw [main_hash_table_length]; exact scenario_keys r)
  have h := Q1_init_spec scenario_table 3 2 (by decide) 2 (main_hash_table ℚ)
    (fun _ => 0) (fun _ => 0) (fun _ => 0) (fun _ => 0)
  rw [hrun] at h
  obtain ⟨st, hst, _⟩ := Run.map_eq_finished _ _ _ h
  exact ⟨hadd, hrev, hok, st, hst,
    ((C16_sums_never_decrease_nonneg (fun _ : ℚ => True) (fun a _ => le_refl a)
      (fun _ _ _ => le_trans) hadd scenario_table 3 2 2 hrev
      (main_hash_table ℚ) hok (fun _ => 0) (fun _ => 0) (fun _ => 0) (fun _ => 0)).2.1
      st hst).1⟩

/-! ### The selection loops of the microbenchmarks -/

theorem copy_fold_spec {α : Type} (w p : Nat → Bool) (v : Nat → α) (is : List Nat) :
    ∀ (o : Nat) (res : Mem α),
      ((is.foldl (copy_body w p v) (o, res)).1
          = o + (is.filter (fun i => w i && p i)).length) ∧
      (∀ j, j < (is.filter (fun i => w i && p i)).length →
        ((is.filter (fun i => w i && p i)).map v)[j]?
          = some ((is.foldl (copy_body w p v) (o, res)).2 (o + j))) ∧
      (∀ k, k < o → (is.foldl (copy_body w p v) (o, res)).2 k = res k) ∧
      (is.foldl (copy_body w p v) (o, res)).1 ≤ o + is.length := by
  induction is with
  | nil => intro o res; simp
  | cons i is ih =>
    intro o res
    by_cases hw : w i = true
    · by_cases hp : p i = true
      · obtain ⟨h1, h2, h3, h4⟩ := ih (o + 1) (res.write o (v i))
        have hf : copy_body w p v (o, res) i = (o + 1, res.write o (v i)) := by
          simp [copy_body, hw, hp]
        simp only [List.foldl_cons, hf, List.filter_cons, hw, hp, Bool.and_self, if_true,
          List.length_cons, List.map_cons]
        refine ⟨by omega, ?_, ?_, by omega⟩
        · intro j hj
          cases j with
          | zero =>
            have := h3 o (Nat.lt_succ_self o)
            simp [this, Mem.write]
          | succ j =>
            have := h2 j (by omega)
            have e : o + (j + 1) = o + 1 + j := by omega
            simp only [List.getElem?_cons_succ, this, e]
        · intro k hk
          rw [h3 k (by omega)]
          have : k ≠ o := by omega
          simp [Mem.write, this]
      · obtain ⟨h1, h2, h3, h4⟩ := ih o (res.write o (v i))
        have hf : copy_body w p v (o, res) i = (o, res.write o (v i)) := by
          simp [copy_body, hw, hp]
        simp only [List.foldl_cons, hf, List.filter_cons, hw, hp, Bool.and_false,
          List.length_cons]
        refine ⟨h1, h2, ?_, by omega⟩
        intro k hk
        rw [h3 k hk]
        have : k ≠ o := by omega
        simp [Mem.write, this]
    · obtain ⟨h1, h2, h3, h4⟩ := ih o res
      have hf : copy_body w p v (o, res) i = (o, res) := by
        simp [copy_body, hw]
      simp only [List.foldl_cons, hf, List.filter_cons, hw, Bool.false_and, List.length_cons]
      exact ⟨h1, h2, h3, by omega⟩

theorem alternative_A_eq (SIZE : Nat) (col : Mem Int) (val : Int) (res : Mem Int) :
    alternative_A SIZE col val res
      = (List.range SIZE).foldl
          (copy_body (fun _ => true)
            (fun i => decide (col i < val) && decide (Int.tmod (col i) 2 = 0)) col) (0, res) := by
  unfold alternative_A
  congr 1

theorem alternative_B_eq (SIZE : Nat) (col : Mem Int) (val : Int) (res : Mem Int) :
    alternative_B SIZE col val res
      = (List.range SIZE).foldl
          (copy_body (fun i => decide (col i < val))
            (fun i => decide (Int.tmod (col i) 2 = 0)) col) (0, res) := by
  unfold alternative_B
  congr 1
  funext st i
  simp [copy_body]

theorem alternative_C_eq (SIZE : Nat) (col : Mem Int) (val : Int) (res : Mem Int) :
    alternative_C SIZE col val res
      = (List.range SIZE).foldl
          (copy_body (fun i => decide (Int.tmod (col i) 2 = 0))
            (fun i => decide (col i < val)) col) (0, res) := by
  unfold alternative_C
  congr 1
  funext st i
  simp [copy_body]

theorem branchless_selection_eq (SIZE : Nat) (col : Mem Int) (val : Int) (res : Mem Nat) :
    branchless_selection SIZE col val res
      = (List.range SIZE).foldl
          (copy_body (fun _ => true) (fun i => decide (col i < val)) (fun i => i)) (0, res) := by
  unfold branchless_selection
  congr 1

/-- C19: the alternatives A, B and C end with the same count `o`, the number of
positions with `col[i] < val` and `col[i] % 2 == 0`, and with the same first
`o` entries of `res`, the qualifying column values in column order; in each of
them the count after `i` iterations, which is the index of the write `res[o]` of
iteration `i`, is at most `i`, so no write goes past the column length. -/
theorem C19_alternatives_equivalent (SIZE : Nat) (col : Mem Int) (val : Int)
    (resA resB resC : Mem Int) :
    ((alternative_A SIZE col val resA).1 = (conj_rows SIZE col val).length ∧
      (alternative_B SIZE col val resB).1 = (conj_rows SIZE col val).length ∧
      (alternative_C SIZE col val resC).1 = (conj_rows SIZE col val).length) ∧
    (∀ j, j < (conj_rows SIZE col val).length →
      ((conj_rows SIZE col val).map col)[j]? = some ((alternative_A SIZE col val resA).2 j) ∧
      ((conj_rows SIZE col val).map col)[j]? = some ((alternative_B SIZE col val resB).2 j) ∧
      ((conj_rows SIZE col val).map col)[j]? = some ((alternative_C SIZE col val resC).2 j)) ∧
    (∀ i, (alternative_A i col val resA).1 ≤ i ∧ (alternative_B i col val resB).1 ≤ i ∧
      (alternative_C i col val resC).1 ≤ i) := by
  have fA : ∀ n, (List.range n).filter (fun i => (fun _ => true) i &&
      (fun i => decide (col i < val) && decide (Int.tmod (col i) 2 = 0)) i)
      = conj_rows n col val := by
    intro n; simp [conj_rows]
  have fB : ∀ n, (List.range n).filter (fun i => (fun i => decide (col i < val)) i &&
      (fun i => decide (Int.tmod (col i) 2 = 0)) i) = conj_rows n col val := by
    intro n; simp [conj_rows]
  have fC : ∀ n, (List.range n).filter (fun i => (fun i => decide (Int.tmod (col i) 2 = 0)) i &&
      (fun i => decide (col i < val)) i) = conj_rows n col val := by
    intro n
    simp only [conj_rows]
    apply List.filter_congr
    intro i _
    exact Bool.and_comm _ _
  have sA := fun n => copy_fold_spec (fun _ => true)
    (fun i => decide (col i < val) && decide (Int.tmod (col i) 2 = 0)) col (List.range n) 0 resA
  have sB := fun n => copy_fold_spec (fun i => decide (col i < val))
    (fun i => decide (Int.tmod (col i) 2 = 0)) col (List.range n) 0 resB
  have sC := fun n => copy_fold_spec (fun i => decide (Int.tmod (col i) 2 = 0))
    (fun i => decide (col i < val)) col (List.range n) 0 resC
  simp only [fA, ← alternative_A_eq, Nat.zero_add, List.length_range] at sA
  simp only [fB, ← alternative_B_eq, Nat.zero_add, List.length_range] at sB
  simp only [fC, ← alternative_C_eq, Nat.zero_add, List.length_range] at sC
  refine ⟨⟨(sA SIZE).1, (sB SIZE).1, (sC SIZE).1⟩, ?_, ?_⟩
  · intro j hj
    exact ⟨(sA SIZE).2.1 j hj, (sB SIZE).2.1 j hj, (sC SIZE).2.1 j hj⟩
  · intro i
    exact ⟨(sA i).2.2.2, (sB i).2.2.2, (sC i).2.2.2⟩

/-- C20: the branch-less selection loop ends with the count returned by
`FILTER_lt_date_col_date_val(n, res, col, val, NULL)` and with the same first
`o` entries of `res`, the increasing list of the `i < n` with `col[i] < val`;
the count after `i` iterations, which is the index of the write `res[o]` of
iteration `i`, is at most `i`. -/
theorem C20_branchless_selection (n : Nat) (col : Mem Int) (val : Int) (res res1 : Mem Nat) :
    ((branchless_selection n col val res).1 : Int)
      = (FILTER_lt_date_col_date_val n res1 col val none).1 ∧
    (∀ j, j < (branchless_selection n col val res).1 →
      (branchless_selection n col val res).2 j
        = (FILTER_lt_date_col_date_val n res1 col val none).2 j) ∧
    selection (branchless_selection n col val res).1
        (some (branchless_selection n col val res).2)
      = (List.range n).filter (fun i => decide (col i < val)) ∧
    (∀ i, (branchless_selection i col val res).1 ≤ i) := by
  have f : ∀ m, (List.range m).filter (fun i => (fun _ => true) i &&
      (fun i => decide (col i < val)) i)
      = (List.range m).filter (fun i => decide (col i < val)) := by
    intro m; simp
  have sB := fun m => copy_fold_spec (fun _ => true) (fun i => decide (col i < val))
    (fun i => i) (List.range m) 0 res
  simp only [f, ← branchless_selection_eq, Nat.zero_add, List.length_range,
    List.map_id'] at sB
  have hsel0 : selection (n : Int) none = List.range n := by simp [selection]
  have hcount := FILTER_count n res1 col val none
  rw [hsel0] at hcount
  have hF := FILTER_fold_spec col val (List.range n) 0 res1
  have hFeq := FILTER_eq_fold n res1 col val none
  rw [hsel0] at hFeq
  refine ⟨by rw [hcount, (sB n).1], ?_, ?_, fun i => (sB i).2.2.2⟩
  · intro j hj
    rw [(sB n).1] at hj
    have a := (sB n).2.1 j hj
    have b := hF.2.1 j hj
    rw [a, Nat.zero_add] at b
    rw [hFeq]
    exact Option.some.inj b
  · rw [(sB n).1]
    apply selection_of_getElem?
    intro j hj
    exact (sB n).2.1 j hj

/-! ### Loop unrolling -/

theorem sub_loop_get (SIZE : Nat) (col1 col2 res : Mem Int) (k : Nat) :
    sub_loop SIZE col1 col2 res k
      = if k < SIZE then int_sub (col1 k) (col2 k) else res k := by
  rw [sub_loop, write_fold_get (fun i => int_sub (col1 i) (col2 i))]
  simp only [List.mem_range]

/-- The unrolled loop entered at `i` writes exactly the positions of the
`(SIZE - i) / 4` blocks of four that fit below `SIZE`. -/
theorem sub_loop_unrolled_get (SIZE : Nat) (col1 col2 : Mem Int) :
    ∀ (m i : Nat) (res : Mem Int), SIZE - i = m → ∀ k,
      sub_loop_unrolled SIZE col1 col2 i res k
        = if i ≤ k ∧ k < i + 4 * ((SIZE - i) / 4) then int_sub (col1 k) (col2 k)
          else res k := by
  intro m
  induction m using Nat.strong_induction_on with
  | _ m ih =>
    intro i res hm k
    rw [sub_loop_unrolled]
    by_cases h : i + 3 < SIZE
    · rw [dif_pos h, ih (SIZE - (i + 4)) (by omega) (i + 4) _ rfl k]
      by_cases hk : i + 4 ≤ k ∧ k < i + 4 + 4 * ((SIZE - (i + 4)) / 4)
      · rw [if_pos hk, if_pos (by omega)]
      · rw [if_neg hk]
        simp only [Mem.write]
        by_cases h3 : k = i + 3
        · rw [if_pos h3, if_pos (by omega), h3]
        · rw [if_neg h3]
          by_cases h2 : k = i + 2
          · rw [if_pos h2, if_pos (by omega), h2]
          · rw [if_neg h2]
            by_cases h1 : k = i + 1
            · rw [if_pos h1, if_pos (by omega), h1]
            · rw [if_neg h1]
              by_cases h0 : k = i
              · rw [if_pos h0, if_pos (by omega), h0]
              · rw [if_neg h0, if_neg (by omega)]
    · rw [dif_neg h, if_neg (by omega)]

/-- The value of `int_sub a b`: it lies in the range of `int`, differs from the
exact difference `a - b` by a multiple of `2^32`, and is the exact difference
whenever that fits in `int`. -/
theorem int_sub_spec (a b : Int) :
    int_sub a b = (a - b + 2147483648) % 4294967296 - 2147483648 ∧
    -2147483648 ≤ int_sub a b ∧ int_sub a b < 2147483648 ∧
    (∃ q : Int, int_sub a b = a - b + 4294967296 * q) ∧
    (-2147483648 ≤ a - b → a - b < 2147483648 → int_sub a b = a - b) := by
  have h0 : int_sub a b = (a - b + 2147483648) % 4294967296 - 2147483648 := by
    unfold int_sub; norm_num
  refine ⟨h0, by omega, by omega, ⟨-((a - b + 2147483648) / 4294967296), by omega⟩, ?_⟩
  intro h1 h2
  omega

/-- C21: the unrolled projection leaves `res` in exactly the state the plain
projection leaves it in.  For every `i` in `0..2047` both store
`(col1[i] - col2[i] + 2^31) mod 2^32 - 2^31`, the difference with 32-bit
wrap-around: a value in `[-2^31, 2^31)` that differs from `col1[i] - col2[i]` by
a multiple of `2^32` and is `col1[i] - col2[i]` itself when that fits in `int`;
no trailing element is skipped by the stride-4 loop, and every position from
2048 on is as it was. -/
theorem C21_unrolling_preserves_result (col1 col2 res : Mem Int) :
    PROJECT_sub_int_col_int_col_unrolled col1 col2 res
      = PROJECT_sub_int_col_int_col col1 col2 res ∧
    (∀ i, i < 2048 →
      PROJECT_sub_int_col_int_col_unrolled col1 col2 res i
        = (col1 i - col2 i + 2147483648) % 4294967296 - 2147483648 ∧
      PROJECT_sub_int_col_int_col col1 col2 res i
        = (col1 i - col2 i + 2147483648) % 4294967296 - 2147483648 ∧
      -2147483648 ≤ PROJECT_sub_int_col_int_col_unrolled col1 col2 res i ∧
      PROJECT_sub_int_col_int_col_unrolled col1 col2 res i < 2147483648 ∧
      (∃ q : Int, PROJECT_sub_int_col_int_col_unrolled col1 col2 res i
        = col1 i - col2 i + 4294967296 * q) ∧
      (-2147483648 ≤ col1 i - col2 i → col1 i - col2 i < 2147483648 →
        PROJECT_sub_int_col_int_col_unrolled col1 col2 res i = col1 i - col2 i)) ∧
    (∀ i, 2048 ≤ i →
      PROJECT_sub_int_col_int_col_unrolled col1 col2 res i = res i ∧
      PROJECT_sub_int_col_int_col col1 col2 res i = res i) := by
  have hu : ∀ k, PROJECT_sub_int_col_int_col_unrolled col1 col2 res k
      = if k < 2048 then int_sub (col1 k) (col2 k) else res k := by
    intro k
    rw [PROJECT_sub_int_col_int_col_unrolled,
      sub_loop_unrolled_get STANDARD_VECTOR_SIZE col1 col2 _ 0 res rfl k]
    simp only [STANDARD_VECTOR_SIZE]
    by_cases hk : k < 2048
    · rw [if_pos hk, if_pos (by omega)]
    · rw [if_neg hk, if_neg (by omega)]
  have hp : ∀ k, PROJECT_sub_int_col_int_col col1 col2 res k
      = if k < 2048 then int_sub (col1 k) (col2 k) else res k := by
    intro k
    rw [PROJECT_sub_int_col_int_col, sub_loop_get]
    rfl
  refine ⟨?_, ?_, ?_⟩
  · funext k
    rw [hu, hp]
  · intro i hi
    obtain ⟨s0, s1, s2, s3, s4⟩ := int_sub_spec (col1 i) (col2 i)
    rw [hu, hp, if_pos hi]
    exact ⟨s0, s0, s1, s2, s3, s4⟩
  · intro i hi
    rw [hu, hp, if_neg (by omega)]
    exact ⟨rfl, rfl⟩

/-- The plain and the unrolled projection on concrete vectors: `7 - 9 = -2`
at position 0, and the difference `-2147483648 - 1` wraps around to
`2147483647` at position 2047. -/
theorem PROJECT_sub_int_example :
    PROJECT_sub_int_col_int_col_unrolled (fun i => if i = 2047 then -2147483648 else 7)
        (fun i => if i = 2047 then 1 else 9) (fun _ => 0) 0 = -2 ∧
    PROJECT_sub_int_col_int_col_unrolled (fun i => if i = 2047 then -2147483648 else 7)
        (fun i => if i = 2047 then 1 else 9) (fun _ => 0) 2047 = 2147483647 := by
  have hu : ∀ (col1 col2 res : Mem Int) (k : Nat), k < 2048 →
      PROJECT_sub_int_col_int_col_unrolled col1 col2 res k = int_sub (col1 k) (col2 k) := by
    intro col1 col2 res k hk
    rw [PROJECT_sub_int_col_int_col_unrolled,
      sub_loop_unrolled_get STANDARD_VECTOR_SIZE col1 col2 _ 0 res rfl k]
    simp only [STANDARD_VECTOR_SIZE]
    rw [if_pos (by omega)]
  constructor
  · rw [hu _ _ _ 0 (by omega)]; decide
  · rw [hu _ _ _ 2047 (by omega)]; decide

/-- On a vector whose length is not a multiple of 4 the stride-4 loop does skip
the trailing elements: with length 6 it leaves positions 4 and 5 as they
were. -/
theorem sub_loop_unrolled_skips (col1 col2 res : Mem Int) :
    sub_loop_unrolled 6 col1 col2 0 res 4 = res 4 ∧
    sub_loop_unrolled 6 col1 col2 0 res 5 = res 5 ∧
    sub_loop 6 col1 col2 res 4 = int_sub (col1 4) (col2 4) := by
  refine ⟨?_, ?_, ?_⟩
  · rw [sub_loop_unrolled_get 6 col1 col2 _ 0 res rfl 4, if_neg (by omega)]
  · rw [sub_loop_unrolled_get 6 col1 col2 _ 0 res rfl 5, if_neg (by omega)]
  · rw [sub_loop_get, if_pos (by omega)]
